import Mathlib

/-!
Shallow embedding of the quicktype type-graph core (src/src-ts/Type.ts).

Nodes of the type graph are shared and possibly cyclic, so the embedding
uses an arena: a graph is a list of node definitions and a node reference
is an index into that list (`NodeId`).  Object identity of the source
becomes equality of indices.  JavaScript 32-bit integer arithmetic is
modelled as natural numbers reduced modulo 2^32 (the bit patterns of the
source's int32 values and of these naturals agree, so equality of hash
values is preserved).  Code that panics (invariant violations) or that
would dereference a missing node is modelled with `Option`, `none` being
the fatal fault.  Unbounded loops and recursions of the source (the
work-list equality algorithm, the hash recursion through array/map
children, the depth-first traversal) take an explicit fuel argument;
running out of fuel also yields `none`.
-/

/-- Modulus of JavaScript unsigned 32-bit arithmetic. -/
def U32 : Nat := 4294967296

/-- The external string-hash primitive (npm package string-hash): djb2 with
xor, iterating over the UTF-16 code units from the last to the first,
on 32-bit integers. -/
def stringHash (s : String) : Nat :=
  s.data.reverse.foldl (fun h c => (Nat.xor (h * 33 % U32) c.toNat) % U32) 5381

/-- Model of the external immutable.js collection hashCode on an ordered
collection of strings.  The spec only requires it to be a deterministic
function of the ordered elements; the exact mixing does not matter. -/
def collHash (l : List String) : Nat :=
  l.foldl (fun h s => (h * 31 + stringHash s) % U32) 0

/-- The closed set of primitive kind tags. -/
inductive PrimitiveKind where
  | any | null | bool | integer | double | string
deriving DecidableEq

/-- The kind tag string of a primitive kind. -/
def PrimitiveKind.toStr : PrimitiveKind → String
  | .any => "any"
  | .null => "null"
  | .bool => "bool"
  | .integer => "integer"
  | .double => "double"
  | .string => "string"

/-- A node reference: index into the arena. -/
abbrev NodeId := Nat

/-- One node of the type graph.  Class properties are `Option`al because a
Class is constructed with its properties unset and they are set exactly
once afterwards (two-phase initialization).  Name sets (`OrderedSet<string>`
in the source) are insertion-ordered duplicate-free lists. -/
inductive NodeDef where
  | primitiveType (kind : PrimitiveKind)
  | arrayType (items : Nat)
  | mapType (values : Nat)
  | classType (names : List String) (areNamesInferred : Bool)
      (properties : Option (List (String × Nat)))
  | enumType (names : List String) (areNamesInferred : Bool) (cases : List String)
  | unionType (names : List String) (areNamesInferred : Bool) (members : List Nat)
deriving DecidableEq

/-- The arena of nodes; `NodeId` i refers to the i-th entry. -/
abbrev Graph := List NodeDef

/-- The kind tag of a node, as the source's kind string. -/
def NodeDef.kind : NodeDef → String
  | .primitiveType k => k.toStr
  | .arrayType _ => "array"
  | .mapType _ => "map"
  | .classType _ _ _ => "class"
  | .enumType _ _ _ => "enum"
  | .unionType _ _ _ => "union"

/-- Kind of the node a reference points to (`t.kind`). -/
def kindOf (g : Graph) (i : Nat) : Option String :=
  (g[i]?).map NodeDef.kind

/-- Name set and inferred flag of a named node (Class, Enum, Union). -/
def NodeDef.namesInfo : NodeDef → Option (List String × Bool)
  | .classType ns inf _ => some (ns, inf)
  | .enumType ns inf _ => some (ns, inf)
  | .unionType ns inf _ => some (ns, inf)
  | _ => none

/-- Replace the name set and inferred flag of a named node. -/
def NodeDef.setNamesInfo : NodeDef → List String → Bool → NodeDef
  | .classType _ _ ps, ns, inf => .classType ns inf ps
  | .enumType _ _ cs, ns, inf => .enumType ns inf cs
  | .unionType _ _ ms, ns, inf => .unionType ns inf ms
  | d, _, _ => d

/-- OrderedSet.add: append if not already present (insertion order kept). -/
def osAdd (l : List String) (s : String) : List String :=
  if s ∈ l then l else l ++ [s]

/-- NamedType.addName: an inferred name never dilutes given names; the first
given name replaces a purely inferred name set; otherwise the name is added
to the set.  `none` when the node is not a named type. -/
def addName (d : NodeDef) (name : String) (isInferred : Bool) : Option NodeDef :=
  (d.namesInfo).map fun p =>
    if isInferred && !p.2 then d
    else if p.2 && !isInferred then d.setNamesInfo [name] isInferred
    else d.setNamesInfo (osAdd p.1 name) p.2

/-- NamedType.setGivenName: unconditionally replace the name set with the
singleton and mark the names as given. -/
def setGivenName (d : NodeDef) (name : String) : Option NodeDef :=
  (d.namesInfo).map fun _ => d.setNamesInfo [name] false

/-- ClassType.setProperties: one-shot setter; setting twice (or on a
non-class) is the fatal invariant violation `none`. -/
def NodeDef.setProperties (d : NodeDef) (ps : List (String × Nat)) : Option NodeDef :=
  match d with
  | .classType ns inf none => some (.classType ns inf (some ps))
  | _ => none

/-- ClassType.properties accessor: reading before the properties were set is
the fatal invariant violation `none`. -/
def NodeDef.properties : NodeDef → Option (List (String × Nat))
  | .classType _ _ p => p
  | _ => none

/-! ## combineNames -/

/-- First mismatch scan of the source's inner prefix loop: walks the two
character lists up to the given limit and returns the index of the first
mismatch, or the limit itself if none is found.  The caller clamps the
limit to both lengths, so the out-of-bounds fallback is unreachable. -/
def preScan : List Char → List Char → Nat → Nat
  | _, _, 0 => 0
  | x :: xs, y :: ys, pl + 1 => if x = y then preScan xs ys pl + 1 else 0
  | _, _, _ + 1 => 0

/-- Length of the longest common prefix of two character lists (used only to
state the specification of combineNames). -/
def lcpLen : List Char → List Char → Nat
  | x :: xs, y :: ys => if x = y then lcpLen xs ys + 1 else 0
  | _, _ => 0

/-- combineNames: a single name is returned verbatim; otherwise the longest
common prefix and suffix of all names relative to the first are computed by
iterated shrinking, each kept only if longer than 2; their concatenation is
returned if longer than 2, else the first name.  `none` models the panic on
an empty name set. -/
def combineNames (names : List String) : Option String :=
  match names with
  | [] => none
  | first :: rest =>
    if rest = [] then some first
    else
      let pls := rest.foldl
        (fun (a : Nat × Nat) n =>
          (preScan first.data n.data (min a.1 n.length),
           preScan first.data.reverse n.data.reverse (min a.2 n.length)))
        (first.length, first.length)
      let pfx := if 2 < pls.1 then String.mk (first.data.take pls.1) else ""
      let sfx := if 2 < pls.2 then String.mk (first.data.drop (first.length - pls.2)) else ""
      let comb := pfx ++ sfx
      some (if 2 < comb.length then comb else first)

/-- Specification-side restatement of combineNames: the longest common
prefix/suffix lengths over all names relative to the first are the minima of
the pairwise longest-common-prefix/suffix lengths; the > 2 filters and the
fallback to the first name are as described. -/
def specCombinedName (first : String) (rest : List String) : String :=
  if rest = [] then first
  else
    let pl := rest.foldl (fun m n => min m (lcpLen first.data n.data)) first.length
    let sl := rest.foldl (fun m n => min m (lcpLen first.data.reverse n.data.reverse)) first.length
    let pfx := if 2 < pl then String.mk (first.data.take pl) else ""
    let sfx := if 2 < sl then String.mk (first.data.drop (first.length - sl)) else ""
    let comb := pfx ++ sfx
    if 2 < comb.length then comb else first

/-! ## Cycle-safe equality -/

/-- Result of one equality-expansion step: either a definite boolean or a
list of child pairs still to be compared. -/
inductive ExpandResult where
  | res (b : Bool)
  | more (pairs : List (Nat × Nat))
deriving DecidableEq

/-- immutable Map.get on the property list: first binding of the key. -/
def mapLookup (ps : List (String × Nat)) (n : String) : Option Nat :=
  (ps.find? (fun p => p.1 == n)).map Prod.snd

/-- ClassType.expandForEquality's pair collection: for each property of the
first class look the name up in the second; a missing name stops the
collection (the subsequent length check then fails). -/
def collectPairs : List (String × Nat) → List (String × Nat) → List (Nat × Nat)
  | [], _ => []
  | (n, t) :: rest, ps2 =>
    match mapLookup ps2 n with
    | none => []
    | some t' => (t, t') :: collectPairs rest ps2

/-- The JS object `otherByKind` built by assignment: a later member of the
same kind overwrites an earlier one, so lookup yields the last member of
the given kind. -/
def lastWithKind (g : Graph) (ms : List Nat) (k : String) : Option Nat :=
  ms.reverse.find? (fun m => kindOf g m == some k)

/-- UnionType.expandForEquality's pair collection: match members by kind; a
kind missing from the other union stops the collection. -/
def collectKindPairs (g : Graph) : List Nat → List Nat → List (Nat × Nat)
  | [], _ => []
  | m :: rest, ms2 =>
    match kindOf g m with
    | none => []
    | some k =>
      match lastWithKind g ms2 k with
      | none => []
      | some m' => (m, m') :: collectKindPairs g rest ms2

/-- Kind strings of all members (the union expansion reads every member's
kind field; a dangling reference is the fault `none`). -/
def allKinds (g : Graph) : List Nat → Option (List String)
  | [] => some []
  | m :: ms =>
    match kindOf g m with
    | none => none
    | some k => (allKinds g ms).map (k :: ·)

/-- expandForEquality, dispatching on the two nodes' variants exactly as the
per-class implementations do: kind mismatch, name mismatch or size mismatch
short-circuit to false; primitives compare kinds; enums compare names and
cases; array/map yield their single child pair; class/union yield the
matched child pairs.  Reading unset class properties is the fault `none`. -/
def expandForEquality (g : Graph) (i j : Nat) : Option ExpandResult :=
  match g[i]?, g[j]? with
  | some d1, some d2 =>
    match d1, d2 with
    | .primitiveType k1, .primitiveType k2 => some (.res (decide (k1 = k2)))
    | .primitiveType _, _ => some (.res false)
    | .arrayType t1, .arrayType t2 => some (.more [(t1, t2)])
    | .arrayType _, _ => some (.res false)
    | .mapType t1, .mapType t2 => some (.more [(t1, t2)])
    | .mapType _, _ => some (.res false)
    | .classType ns1 _ ps1?, .classType ns2 _ ps2? =>
      if ns1 = ns2 then
        match ps1?, ps2? with
        | some ps1, some ps2 =>
          if ps1.length = ps2.length then
            if ps1.length = 0 then some (.res true)
            else
              let q := collectPairs ps1 ps2
              if q.length = ps1.length then some (.more q) else some (.res false)
          else some (.res false)
        | _, _ => none
      else some (.res false)
    | .classType _ _ _, _ => some (.res false)
    | .enumType ns1 _ cs1, .enumType ns2 _ cs2 =>
      some (.res (decide (ns1 = ns2) && decide (cs1 = cs2)))
    | .enumType _ _ _, _ => some (.res false)
    | .unionType ns1 _ ms1, .unionType ns2 _ ms2 =>
      if ns1 = ns2 then
        if ms1.length = ms2.length then
          if ms1.length = 0 then some (.res true)
          else
            match allKinds g ms2, allKinds g ms1 with
            | some _, some _ =>
              let q := collectKindPairs g ms1 ms2
              if q.length = ms1.length then some (.more q) else some (.res false)
            | _, _ => none
        else some (.res false)
      else some (.res false)
    | .unionType _ _ _, _ => some (.res false)
  | _, _ => none

/-- The work-list loop of typesEqual.  The queue is a stack (head = top,
matching the push/pop-at-the-end discipline of the source).  A popped pair
of identical references is skipped; a pair already recorded is assumed
equal and skipped; otherwise the pair is recorded and expanded.  The
source's hash-bucketed `alreadySeenByHash` is a lookup structure for exact
pair membership, modelled as a plain list of pairs. -/
def eqLoop (g : Graph) : Nat → List (Nat × Nat) → List (Nat × Nat) → Option Bool
  | 0, _, _ => none
  | fuel + 1, seen, queue =>
    match queue with
    | [] => some true
    | p :: rest =>
      if p.1 = p.2 then eqLoop g fuel seen rest
      else if p ∈ seen then eqLoop g fuel seen rest
      else
        match expandForEquality g p.1 p.2 with
        | none => none
        | some (.res b) => if b then eqLoop g fuel (p :: seen) rest else some false
        | some (.more q) => eqLoop g fuel (p :: seen) (q.reverse ++ rest)

/-- typesEqual: identical references are equal; otherwise one expansion step
either decides or seeds the work-list loop. -/
def typesEqual (g : Graph) (fuel : Nat) (i j : Nat) : Option Bool :=
  if i = j then some true
  else
    match expandForEquality g i j with
    | none => none
    | some (.res b) => some b
    | some (.more q) => eqLoop g fuel [] q.reverse

/-! ## Hashing -/

/-- flatHashCode (flag true) and hashCode (flag false) in one fueled
recursion.  flatHashCode of a primitive hashes the kind; of array/map it
folds in the single child's (full) hashCode; of class/enum/union it hashes
kind, names and immediate attributes only.  hashCode defaults to
flatHashCode; Class and Union override it to additionally fold in each
child's flat hash (one level deep).  All additions are modulo 2^32. -/
def hashAux (g : Graph) : Nat → Bool → Nat → Option Nat
  | 0, _, _ => none
  | fuel + 1, flat, i =>
    (g[i]?).bind fun d =>
      if flat then
        match d with
        | .primitiveType k => some (stringHash k.toStr)
        | .arrayType it =>
          (hashAux g fuel false it).map fun h => (stringHash "array" + h) % U32
        | .mapType v =>
          (hashAux g fuel false v).map fun h => (stringHash "map" + h) % U32
        | .classType ns _ ps? =>
          ps?.map fun ps => (stringHash "class" + collHash ns + ps.length) % U32
        | .enumType ns _ cs =>
          some ((stringHash "enum" + collHash ns + collHash cs) % U32)
        | .unionType ns _ ms =>
          some ((stringHash "union" + collHash ns + ms.length) % U32)
      else
        match d with
        | .classType _ _ ps? =>
          match ps? with
          | none => none
          | some ps =>
            (hashAux g fuel true i).bind fun fh =>
              ps.foldlM
                (fun h p => (hashAux g fuel true p.2).map
                  fun ch => (h + ch + stringHash p.1) % U32) fh
        | .unionType _ _ ms =>
          (hashAux g fuel true i).bind fun fh =>
            ms.foldlM
              (fun h m => (hashAux g fuel true m).map fun ch => (h + ch) % U32) fh
        | _ => hashAux g fuel true i

/-- Type.flatHashCode. -/
def flatHashCode (g : Graph) (fuel : Nat) (i : Nat) : Option Nat :=
  hashAux g fuel true i

/-- Type.hashCode. -/
def hashCode (g : Graph) (fuel : Nat) (i : Nat) : Option Nat :=
  hashAux g fuel false i

/-! ## Nullability helpers -/

/-- UnionType.findMember specialised by a kind string. -/
def findMember (g : Graph) (ms : List Nat) (k : String) : Option Nat :=
  ms.find? (fun m => kindOf g m == some k)

/-- removeNullFromUnion on a union's member list: the null member if any,
and the members with nulls filtered out. -/
def removeNullFromUnion (g : Graph) (ms : List Nat) : Option Nat × List Nat :=
  match findMember g ms "null" with
  | none => (none, ms)
  | some n => (some n, ms.filter (fun m => !(kindOf g m == some "null")))

/-- nullableFromUnion: the sole non-null member of a union of exactly
{null, X}, else none. -/
def nullableFromUnion (g : Graph) (ms : List Nat) : Option Nat :=
  match removeNullFromUnion g ms with
  | (none, _) => none
  | (some _, nonNulls) =>
    match nonNulls with
    | [x] => some x
    | _ => none

/-- makeNullable: the null primitive is returned unchanged; a non-union is
wrapped in a fresh 2-member union {t, null} carrying the supplied names and
flag; a union already containing null is returned unchanged; otherwise a
fresh union with a fresh null member appended, again carrying the supplied
names and flag.  Fresh nodes are appended to the arena. -/
def makeNullable (g : Graph) (i : Nat) (typeNames : List String)
    (areNamesInferred : Bool) : Option (Graph × Nat) :=
  match g[i]? with
  | none => none
  | some d =>
    if d.kind = "null" then some (g, i)
    else
      match d with
      | .unionType _ _ ms =>
        match removeNullFromUnion g ms with
        | (some _, _) => some (g, i)
        | (none, nonNulls) =>
          let nullId := g.length
          let g' := g ++ [.primitiveType .null]
          some (g' ++ [.unionType typeNames areNamesInferred (nonNulls ++ [nullId])],
                g'.length)
      | _ =>
        let nullId := g.length
        let g' := g ++ [.primitiveType .null]
        some (g' ++ [.unionType typeNames areNamesInferred [i, nullId]], g'.length)

/-- removeNull: a non-union is returned unchanged; otherwise null members
are stripped, the sole remaining member is returned directly, several
remaining members form a fresh union carrying the original union's names
and flag, and an emptied union is the fatal fault `none`. -/
def removeNull (g : Graph) (i : Nat) : Option (Graph × Nat) :=
  match g[i]? with
  | none => none
  | some d =>
    match d with
    | .unionType ns inf ms =>
      match (removeNullFromUnion g ms).2 with
      | [] => none
      | [x] => some (g, x)
      | x :: y :: xs => some (g ++ [.unionType ns inf (x :: y :: xs)], g.length)
    | _ => some (g, i)

/-! ## Graph traversal -/

/-- Code-unit lexicographic string comparison (JS default sort order). -/
def charListLeB : List Char → List Char → Bool
  | [], _ => true
  | _ :: _, [] => false
  | x :: xs, y :: ys =>
    if x.toNat < y.toNat then true
    else if y.toNat < x.toNat then false
    else charListLeB xs ys

/-- String comparison on the underlying code units. -/
def strLeB (a b : String) : Bool := charListLeB a.data b.data

/-- Stable insertion into a list sorted by the boolean comparison. -/
def insertSorted (leB : α → α → Bool) (x : α) : List α → List α
  | [] => [x]
  | y :: ys => if leB y x then y :: insertSorted leB x ys else x :: y :: ys

/-- Stable insertion sort by the boolean comparison. -/
def sortByB (leB : α → α → Bool) (l : List α) : List α :=
  l.foldl (fun acc x => insertSorted leB x acc) []

/-- OrderedSet deduplication: keep the first occurrence of each element. -/
def distinctKeepFirst (l : List Nat) : List Nat :=
  go [] l
where
  go : List Nat → List Nat → List Nat
  | _, [] => []
  | acc, x :: xs => if x ∈ acc then go acc xs else x :: go (x :: acc) xs

/-- Type.children: primitives and enums have none; array/map their single
child; a class the values of its properties sorted by property name, as a
duplicate-free set; a union its members sorted by kind.  Children of a
class whose properties are unset, of a dangling reference, or of a union
with a dangling member are the fault `none`. -/
def childrenOf (g : Graph) (i : Nat) : Option (List Nat) :=
  (g[i]?).bind fun d =>
    match d with
    | .primitiveType _ => some []
    | .arrayType it => some [it]
    | .mapType v => some [v]
    | .enumType _ _ _ => some []
    | .classType _ _ none => none
    | .classType _ _ (some ps) =>
      some (distinctKeepFirst ((sortByB (fun a b => strLeB a.1 b.1) ps).map Prod.snd))
    | .unionType _ _ ms =>
      (allKinds g ms).map fun ks =>
        (sortByB (fun a b => strLeB a.2 b.2) (ms.zip ks)).map Prod.fst

/-- Traversal state of filterTypes: the identity-keyed seen set, the
post-order trace of nodes on which the predicate has been evaluated
(instrumentation: one entry per predicate call), and the accumulator of
nodes satisfying the predicate, in push order. -/
structure TravSt where
  seen : List Nat
  trace : List Nat
  types : List Nat
deriving DecidableEq

/-- filterTypes' recursive visitor: an already-seen node returns at once;
otherwise the node is marked seen before its children-of-interest are
visited, and after the recursion the predicate is evaluated on the node
(recorded in the trace) and the node collected if it matches. -/
def addFromType (chf : Nat → Option (List Nat)) (p : Nat → Bool) :
    Nat → TravSt → Nat → Option TravSt
  | 0, _, _ => none
  | fuel + 1, st, t =>
    if t ∈ st.seen then some st
    else
      match chf t with
      | none => none
      | some cs =>
        match cs.foldlM (fun s c => addFromType chf p fuel s c)
            { st with seen := t :: st.seen } with
        | none => none
        | some st2 =>
          some ⟨st2.seen, st2.trace ++ [t],
                if p t then st2.types ++ [t] else st2.types⟩

/-- The whole-graph walk of filterTypes: visit every top-level root in
order, threading the state. -/
def traverseAll (chf : Nat → Option (List Nat)) (p : Nat → Bool) (fuel : Nat)
    (topLevels : List (String × Nat)) : Option TravSt :=
  topLevels.foldlM (fun st r => addFromType chf p fuel st r.2) ⟨[], [], []⟩

/-- filterTypes: the collected matching nodes, reversed, as an ordered set. -/
def filterTypes (g : Graph) (p : Nat → Bool) (fuel : Nat)
    (topLevels : List (String × Nat)) : Option (List Nat) :=
  (traverseAll (childrenOf g) p fuel topLevels).map fun st =>
    distinctKeepFirst st.types.reverse

/-- Reachability along the traversal's edge function from a set of roots. -/
inductive Reachable (chf : Nat → Option (List Nat)) (roots : List Nat) : Nat → Prop
  | root {t} : t ∈ roots → Reachable chf roots t
  | step {u cs c} : Reachable chf roots u → chf u = some cs → c ∈ cs →
      Reachable chf roots c

/-! ## Well-formedness predicates -/

/-- Boolean check that a node's children are defined and stay below the
bound. -/
def chOkB (chf : Nat → Option (List Nat)) (n i : Nat) : Bool :=
  match chf i with
  | some cs => cs.all (· < n)
  | none => false

/-- Invariants the source maintains by construction and that the hashing
soundness argument uses: property names of a class are unique (they key an
immutable Map) and members of a union have pairwise distinct kinds (the
construction-time assumption the source relies on). -/
def defWFB (g : Graph) (d : NodeDef) : Bool :=
  match d with
  | .classType _ _ (some ps) => decide (ps.map Prod.fst).Nodup
  | .unionType _ _ ms => decide (ms.Pairwise (fun a b => kindOf g a ≠ kindOf g b))
  | _ => true

/-- Graph-wide form of the class/union invariants. -/
def HashWF (g : Graph) : Prop := ∀ d ∈ g, defWFB g d = true

instance : DecidablePred HashWF := fun g =>
  inferInstanceAs (Decidable (∀ d ∈ g, defWFB g d = true))

/-- One expansion result is consistent with a set of recorded pairs: a
boolean result must be true, and every produced child pair is either
reference-identical or recorded. -/
def PairsOK (S : List (Nat × Nat)) : ExpandResult → Prop
  | .res b => b = true
  | .more q => ∀ p ∈ q, p.1 = p.2 ∨ p ∈ S

/-- A set of pairs is closed under equality expansion: every recorded pair
expands without fault and its expansion is consistent with the set.  This
is the shape of the final seen set of a successful work-list run. -/
def ClosedPairs (g : Graph) (S : List (Nat × Nat)) : Prop :=
  ∀ p ∈ S, ∃ r, expandForEquality g p.1 p.2 = some r ∧ PairsOK S r

/-- Contributions of a hash fold, collected fault-sensitively (an auxiliary
view of the class/union hashCode folds used in the soundness proof). -/
def hashContribs (f : α → Option Nat) : List α → Option (List Nat)
  | [] => some []
  | a :: l =>
    match f a with
    | none => none
    | some c => (hashContribs f l).map (c :: ·)

/-! ## Helper lemmas -/

theorem eqLoop_id_pairs (g : Graph) (q : List (Nat × Nat)) :
    ∀ fuel seen, (∀ p ∈ q, p.1 = p.2) → q.length < fuel →
      eqLoop g fuel seen q = some true := by
  induction q with
  | nil =>
    intro fuel seen _ hf
    obtain ⟨f, rfl⟩ : ∃ f, fuel = f + 1 := ⟨fuel - 1, by omega⟩
    simp [eqLoop]
  | cons p rest ih =>
    intro fuel seen hid hf
    obtain ⟨f, rfl⟩ : ∃ f, fuel = f + 1 := ⟨fuel - 1, by omega⟩
    have hp : p.1 = p.2 := hid p (by simp)
    simp only [eqLoop, hp, if_pos]
    exact ih f seen (fun r hr => hid r (by simp [hr])) (by simp at hf; omega)

theorem mapLookup_head (n : String) (t : Nat) (rest : List (String × Nat)) :
    mapLookup ((n, t) :: rest) n = some t := by
  simp [mapLookup, List.find?_cons]

theorem mapLookup_cons_ne (n m : String) (t : Nat) (rest : List (String × Nat))
    (hne : m ≠ n) : mapLookup ((n, t) :: rest) m = mapLookup rest m := by
  have : (n == m) = false := by simp [hne.symm]
  simp [mapLookup, List.find?_cons, this]

theorem mapLookup_self (ps : List (String × Nat)) :
    (ps.map Prod.fst).Nodup → ∀ p ∈ ps, mapLookup ps p.1 = some p.2 := by
  induction ps with
  | nil => intro _ p hp; cases hp
  | cons q rest ih =>
    intro hnd p hp
    simp only [List.map_cons, List.nodup_cons] at hnd
    rw [List.mem_cons] at hp
    obtain ⟨n, t⟩ := p
    rcases hp with hp | hp
    · subst hp; exact mapLookup_head n t rest
    · have hne : n ≠ q.1 := by
        intro h
        exact hnd.1 (h ▸ List.mem_map_of_mem Prod.fst hp)
      rw [show q = (q.1, q.2) from rfl, mapLookup_cons_ne _ _ _ _ hne]
      exact ih hnd.2 (n, t) hp

theorem collectPairs_of_self (ps1 ps2 : List (String × Nat))
    (h : ∀ p ∈ ps1, mapLookup ps2 p.1 = some p.2) :
    collectPairs ps1 ps2 = ps1.map (fun p => (p.2, p.2)) := by
  induction ps1 with
  | nil => rfl
  | cons q rest ih =>
    have hq := h q (by simp)
    rw [show q = (q.1, q.2) from rfl]
    simp only [collectPairs, hq, List.map_cons]
    exact congrArg _ (ih (fun p hp => h p (by simp [hp])))

theorem find?_unique {α : Type} (pred : α → Bool) (m : α) :
    ∀ l : List α, m ∈ l → pred m = true → (∀ x ∈ l, pred x = true → x = m) →
      l.find? pred = some m := by
  intro l
  induction l with
  | nil => intro h; cases h
  | cons a l ih =>
    intro hm hpm huniq
    by_cases ha : a = m
    · subst ha; simp [List.find?_cons, hpm]
    · have hpa : pred a = false := by
        cases hpa : pred a
        · rfl
        · exact absurd (huniq a (by simp) hpa) ha
      rw [List.find?_cons, hpa]
      have hm' : m ∈ l := by
        rw [List.mem_cons] at hm
        rcases hm with h | h
        · exact absurd h.symm ha
        · exact h
      exact ih hm' hpm (fun x hx hpx => huniq x (by simp [hx]) hpx)

theorem kindUnique (g : Graph) (ms : List Nat) (m : Nat) (k : String)
    (hpw : ms.Pairwise (fun a b => kindOf g a ≠ kindOf g b))
    (hm : m ∈ ms) (hk : kindOf g m = some k) :
    ∀ x ∈ ms, kindOf g x = some k → x = m := by
  intro x hx hkx
  by_contra hne
  have hsym : Symmetric (fun a b => kindOf g a ≠ kindOf g b) :=
    fun _ _ h he => h he.symm
  exact hpw.forall hsym hx hm hne (hkx.trans hk.symm)

theorem lastWithKind_self (g : Graph) (ms : List Nat)
    (hpw : ms.Pairwise (fun a b => kindOf g a ≠ kindOf g b)) :
    ∀ m ∈ ms, ∀ k, kindOf g m = some k → lastWithKind g ms k = some m := by
  intro m hm k hk
  unfold lastWithKind
  apply find?_unique _ m
  · simpa using hm
  · simp [hk]
  · intro x hx hpx
    simp only [List.mem_reverse] at hx
    have : kindOf g x = some k := by simpa using hpx
    exact kindUnique g ms m k hpw hm hk x hx this

theorem collectKindPairs_of_self (g : Graph) (ms1 ms2 : List Nat)
    (h : ∀ m ∈ ms1, ∃ k, kindOf g m = some k ∧ lastWithKind g ms2 k = some m) :
    collectKindPairs g ms1 ms2 = ms1.map (fun m => (m, m)) := by
  induction ms1 with
  | nil => rfl
  | cons m rest ih =>
    obtain ⟨k, hk, hl⟩ := h m (by simp)
    simp only [collectKindPairs, hk, hl, List.map_cons]
    exact congrArg _ (ih (fun x hx => h x (by simp [hx])))

theorem allKinds_of_total (g : Graph) (ms : List Nat)
    (h : ∀ m ∈ ms, ∃ k, kindOf g m = some k) :
    ∃ ks, allKinds g ms = some ks := by
  induction ms with
  | nil => exact ⟨[], rfl⟩
  | cons m rest ih =>
    obtain ⟨k, hk⟩ := h m (by simp)
    obtain ⟨ks, hks⟩ := ih (fun x hx => h x (by simp [hx]))
    exact ⟨k :: ks, by simp [allKinds, hk, hks]⟩

theorem pairwise_kind_nodup (g : Graph) (ms : List Nat)
    (hpw : ms.Pairwise (fun a b => kindOf g a ≠ kindOf g b)) : ms.Nodup :=
  hpw.imp (fun h => by intro he; exact h (he ▸ rfl))

theorem nodup_lt_length_le (l : List Nat) (n : Nat) (hnd : l.Nodup)
    (hlt : ∀ x ∈ l, x < n) : l.length ≤ n := by
  have hsub : l.toFinset ⊆ Finset.range n := by
    intro x hx
    simp only [List.mem_toFinset] at hx
    simpa using hlt x hx
  have := Finset.card_le_card hsub
  rwa [List.toFinset_card_of_nodup hnd, Finset.card_range] at this

/-! ## Claims C8, C5, C10, C9 -/

/-- C8: class properties are two-phase: reading the properties accessor
before setProperties faults; a first setProperties succeeds and stores the
mapping, after which reads return it; a second setProperties faults. -/
theorem claim8_class_properties_two_phase (ns : List String) (inf : Bool)
    (ps ps' : List (String × Nat)) :
    (NodeDef.classType ns inf none).properties = none ∧
    (NodeDef.classType ns inf none).setProperties ps =
      some (.classType ns inf (some ps)) ∧
    (NodeDef.classType ns inf (some ps)).properties = some ps ∧
    (NodeDef.classType ns inf (some ps)).setProperties ps' = none := by
  exact ⟨rfl, rfl, rfl, rfl⟩

/-- C5: addName of an inferred name on a node whose names are given is a
no-op; addName of a given name on a node holding only inferred names
replaces the name set with the singleton and flips the flag to given. -/
theorem claim5_addName_inferred_vs_given (d : NodeDef) (ns : List String)
    (n : String) :
    (d.namesInfo = some (ns, false) → addName d n true = some d) ∧
    (d.namesInfo = some (ns, true) →
      addName d n false = some (d.setNamesInfo [n] false) ∧
      (d.setNamesInfo [n] false).namesInfo = some ([n], false)) := by
  constructor
  · intro h
    cases d <;> simp_all [addName, NodeDef.namesInfo]
  · intro h
    cases d <;> simp_all [addName, NodeDef.namesInfo, NodeDef.setNamesInfo]

/-- Witness for C5 at a concrete enum node. -/
theorem claim5_addName_inferred_vs_given_witness :
    addName (.enumType ["G"] false ["a"]) "x" true =
      some (.enumType ["G"] false ["a"]) ∧
    addName (.enumType ["I"] true ["a"]) "y" false =
      some (.enumType ["y"] false ["a"]) :=
  ⟨(claim5_addName_inferred_vs_given (.enumType ["G"] false ["a"]) ["G"] "x").1 rfl,
   ((claim5_addName_inferred_vs_given (.enumType ["I"] true ["a"]) ["I"] "y").2 rfl).1⟩

/-- C10: addName of a given name on a node whose names are already given
appends to the name set (keeping all previously held names); only
setGivenName replaces the set unconditionally. -/
theorem claim10_addName_appends (d : NodeDef) (ns : List String) (n : String) :
    (d.namesInfo = some (ns, false) →
      addName d n false = some (d.setNamesInfo (osAdd ns n) false) ∧
      (d.setNamesInfo (osAdd ns n) false).namesInfo = some (osAdd ns n, false)) ∧
    (∀ b, d.namesInfo = some (ns, b) →
      setGivenName d n = some (d.setNamesInfo [n] false)) := by
  constructor
  · intro h
    cases d <;> simp_all [addName, NodeDef.namesInfo, NodeDef.setNamesInfo]
  · intro b h
    cases d <;> simp_all [setGivenName, NodeDef.namesInfo]

/-- Witness for C10 at a concrete enum node: the new name is appended after
the existing given names, and setGivenName replaces the whole set. -/
theorem claim10_addName_appends_witness :
    addName (.enumType ["A", "B"] false ["c"]) "C" false =
      some (.enumType ["A", "B", "C"] false ["c"]) ∧
    setGivenName (.enumType ["A", "B"] false ["c"]) "Z" =
      some (.enumType ["Z"] false ["c"]) :=
  ⟨by
    have h := (claim10_addName_appends (.enumType ["A", "B"] false ["c"]) ["A", "B"] "C").1 rfl
    simpa [osAdd, NodeDef.setNamesInfo] using h.1,
   (claim10_addName_appends (.enumType ["A", "B"] false ["c"]) ["A", "B"] "Z").2 false rfl⟩

/-- C9: makeNullable on a union that does not contain the null primitive
builds a fresh union from the supplied names and inferred flag, discarding
the union's own names and flag; only the members (plus a fresh null) are
carried over. -/
theorem claim9_makeNullable_takes_supplied_names (g : Graph) (u : Nat)
    (ns tn : List String) (uinf inf : Bool) (ms : List Nat)
    (hu : g[u]? = some (.unionType ns uinf ms))
    (hnonull : findMember g ms "null" = none) :
    makeNullable g u tn inf =
      some (g ++ [.primitiveType .null, .unionType tn inf (ms ++ [g.length])],
            g.length + 1) := by
  simp [makeNullable, hu, NodeDef.kind, removeNullFromUnion, hnonull]

/-- Witness for C9 on a concrete two-member union. -/
theorem claim9_makeNullable_takes_supplied_names_witness :
    makeNullable [.primitiveType .bool, .primitiveType .integer,
      .unionType ["Old"] true [0, 1]] 2 ["New"] false =
      some ([.primitiveType .bool, .primitiveType .integer,
             .unionType ["Old"] true [0, 1], .primitiveType .null,
             .unionType ["New"] false [0, 1, 3]], 4) := by
  have h := claim9_makeNullable_takes_supplied_names
    [.primitiveType .bool, .primitiveType .integer, .unionType ["Old"] true [0, 1]]
    2 ["Old"] ["New"] true false [0, 1] (by decide) (by decide)
  simpa using h

/-! ## Claims C1 and C7 -/

/-- C1 (counterexample): two structurally identical Enum nodes (same kind,
same cases, distinct objects) whose candidate name sets differ are NOT
equal — expandForEquality compares the name sets, so typesEqual returns
false, contradicting the claim that equality holds regardless of names. -/
theorem claim1_names_matter_counterexample :
    typesEqual [.enumType ["A"] true ["x"], .enumType ["B"] true ["x"]]
      5 0 1 = some false := by decide

/-- C1 (amended): equality is insensitive to object identity and to the
inferred-name flag, but for the named variants (Class, Enum, Union) it
additionally requires the candidate name sets to be equal: two distinct
nodes with identical structural content and identical name sets are equal,
whatever their flags. -/
theorem claim1_equals_ignores_identity_not_names (g : Graph) (i j : Nat)
    (fuel : Nat) (hne : i ≠ j) :
    (∀ ns cs inf1 inf2, g[i]? = some (.enumType ns inf1 cs) →
      g[j]? = some (.enumType ns inf2 cs) →
      typesEqual g fuel i j = some true) ∧
    (∀ ns ps inf1 inf2, g[i]? = some (.classType ns inf1 (some ps)) →
      g[j]? = some (.classType ns inf2 (some ps)) →
      (ps.map Prod.fst).Nodup → ps.length < fuel →
      typesEqual g fuel i j = some true) ∧
    (∀ ns ms inf1 inf2, g[i]? = some (.unionType ns inf1 ms) →
      g[j]? = some (.unionType ns inf2 ms) →
      (∀ m ∈ ms, (kindOf g m).isSome) →
      ms.Pairwise (fun a b => kindOf g a ≠ kindOf g b) →
      ms.length < fuel →
      typesEqual g fuel i j = some true) := by
  refine ⟨?_, ?_, ?_⟩
  · intro ns cs inf1 inf2 hi hj
    have he : expandForEquality g i j = some (.res true) := by
      simp [expandForEquality, hi, hj]
    unfold typesEqual
    rw [if_neg hne, he]
  · intro ns ps inf1 inf2 hi hj hnd hfuel
    have hcp : collectPairs ps ps = ps.map (fun p => (p.2, p.2)) :=
      collectPairs_of_self ps ps (mapLookup_self ps hnd)
    rcases ps with _ | ⟨p0, ps'⟩
    · have he : expandForEquality g i j = some (.res true) := by
        simp [expandForEquality, hi, hj]
      unfold typesEqual
      rw [if_neg hne, he]
    · have he : expandForEquality g i j =
          some (.more ((p0 :: ps').map (fun p => (p.2, p.2)))) := by
        simp [expandForEquality, hi, hj, hcp]
      unfold typesEqual
      rw [if_neg hne, he]
      apply eqLoop_id_pairs
      · intro p hp
        simp only [List.mem_reverse, List.mem_map] at hp
        obtain ⟨q, _, rfl⟩ := hp
        rfl
      · simpa using hfuel
  · intro ns ms inf1 inf2 hi hj htot hpw hfuel
    have htot' : ∀ m ∈ ms, ∃ k, kindOf g m = some k := by
      intro m hm
      obtain ⟨k, hk⟩ := Option.isSome_iff_exists.mp (htot m hm)
      exact ⟨k, hk⟩
    have hck : collectKindPairs g ms ms = ms.map (fun m => (m, m)) := by
      apply collectKindPairs_of_self
      intro m hm
      obtain ⟨k, hk⟩ := htot' m hm
      exact ⟨k, hk, lastWithKind_self g ms hpw m hm k hk⟩
    obtain ⟨ks, hks⟩ := allKinds_of_total g ms htot'
    rcases ms with _ | ⟨m0, ms'⟩
    · have he : expandForEquality g i j = some (.res true) := by
        simp [expandForEquality, hi, hj]
      unfold typesEqual
      rw [if_neg hne, he]
    · have he : expandForEquality g i j =
          some (.more ((m0 :: ms').map (fun m => (m, m)))) := by
        simp [expandForEquality, hi, hj, hks, hck]
      unfold typesEqual
      rw [if_neg hne, he]
      apply eqLoop_id_pairs
      · intro p hp
        simp only [List.mem_reverse, List.mem_map] at hp
        obtain ⟨q, _, rfl⟩ := hp
        rfl
      · simpa using hfuel

/-- Witness for the amended C1 at concrete enum, class and union nodes. -/
theorem claim1_equals_ignores_identity_not_names_witness :
    typesEqual [.enumType ["E"] true ["a", "b"], .enumType ["E"] false ["a", "b"]]
      1 0 1 = some true ∧
    typesEqual [.primitiveType .bool, .classType ["C"] true (some [("p", 0)]),
      .classType ["C"] false (some [("p", 0)])] 2 1 2 = some true ∧
    typesEqual [.primitiveType .bool, .primitiveType .integer,
      .unionType ["U"] true [0, 1], .unionType ["U"] false [0, 1]]
      3 2 3 = some true :=
  ⟨(claim1_equals_ignores_identity_not_names _ 0 1 1 (by decide)).1
      ["E"] ["a", "b"] true false (by decide) (by decide),
   (claim1_equals_ignores_identity_not_names _ 1 2 2 (by decide)).2.1
      ["C"] [("p", 0)] true false (by decide) (by decide) (by decide) (by decide),
   (claim1_equals_ignores_identity_not_names _ 2 3 3 (by decide)).2.2
      ["U"] [0, 1] true false (by decide) (by decide) (by decide) (by decide)
      (by decide)⟩

/-- C7 (counterexample): two independently constructed self-referential
Class graphs with identical property name→type structure but different
name sets are not equal: the claim omits the name-set requirement. -/
theorem claim7_names_matter_counterexample :
    typesEqual [.classType ["A"] false (some [("x", 0)]),
                .classType ["B"] false (some [("x", 1)])] 5 0 1 = some false := by
  decide

/-- C7 (amended): two independently constructed Class nodes (distinct
identities, in an arbitrary ambient graph) with identical property
name→type structure AND equal name sets, each containing the
self-referential cycle of the claim, are equal; the work-list loop
terminates on this cyclic input — three steps suffice because the
revisited pair is found in the recorded set. -/
theorem claim7_cyclic_classes_equal (g : Graph) (i j : Nat) (ns : List String)
    (inf1 inf2 : Bool) (pn : String) (fuel : Nat)
    (hne : i ≠ j)
    (hi : g[i]? = some (.classType ns inf1 (some [(pn, i)])))
    (hj : g[j]? = some (.classType ns inf2 (some [(pn, j)])))
    (hfuel : 3 ≤ fuel) :
    typesEqual g fuel i j = some true := by
  obtain ⟨f, rfl⟩ : ∃ f, fuel = f + 3 := ⟨fuel - 3, by omega⟩
  have hcp : collectPairs [(pn, i)] [(pn, j)] = [(i, j)] := by
    simp [collectPairs, mapLookup_head]
  have he : expandForEquality g i j = some (.more [(i, j)]) := by
    simp [expandForEquality, hi, hj, hcp]
  unfold typesEqual
  rw [if_neg hne, he]
  show eqLoop g (f + 3) [] [(i, j)].reverse = some true
  rw [show f + 3 = f + 2 + 1 from rfl]
  simp [eqLoop, hne, he]

/-- Witness for the amended C7: a concrete pair of self-referential
classes with equal names, distinct identities. -/
theorem claim7_cyclic_classes_equal_witness :
    typesEqual [.classType ["N"] false (some [("x", 0)]),
                .classType ["N"] true (some [("x", 1)])] 3 0 1 = some true :=
  claim7_cyclic_classes_equal _ 0 1 ["N"] false true "x" 3
    (by decide) (by decide) (by decide) (by decide)

/-! ## Claim C3 -/

theorem kindOf_append (g l : Graph) (m : Nat) (h : m < g.length) :
    kindOf (g ++ l) m = kindOf g m := by
  simp [kindOf, List.getElem?_append_left h]

theorem getElem?_append2_fst (g : Graph) (a b : NodeDef) :
    (g ++ [a, b])[g.length]? = some a := by
  rw [List.getElem?_append_right (Nat.le_refl _)]
  simp

theorem getElem?_append2_snd (g : Graph) (a b : NodeDef) :
    (g ++ [a, b])[g.length + 1]? = some b := by
  rw [List.getElem?_append_right (by omega)]
  have h1 : g.length + 1 - g.length = 1 := by omega
  rw [h1]
  rfl

theorem typesEqual_union_same_members (g : Graph) (i j : Nat)
    (ns : List String) (inf1 inf2 : Bool) (ms : List Nat) (fuel : Nat)
    (hne : i ≠ j)
    (hi : g[i]? = some (.unionType ns inf1 ms))
    (hj : g[j]? = some (.unionType ns inf2 ms))
    (htot : ∀ m ∈ ms, ∃ k, kindOf g m = some k)
    (hpw : ms.Pairwise (fun a b => kindOf g a ≠ kindOf g b))
    (hfuel : ms.length < fuel) :
    typesEqual g fuel i j = some true := by
  have hck : collectKindPairs g ms ms = ms.map (fun m => (m, m)) := by
    apply collectKindPairs_of_self
    intro m hm
    obtain ⟨k, hk⟩ := htot m hm
    exact ⟨k, hk, lastWithKind_self g ms hpw m hm k hk⟩
  obtain ⟨ks, hks⟩ := allKinds_of_total g ms htot
  rcases ms with _ | ⟨m0, ms'⟩
  · have he : expandForEquality g i j = some (.res true) := by
      simp [expandForEquality, hi, hj]
    unfold typesEqual
    rw [if_neg hne, he]
  · have he : expandForEquality g i j =
        some (.more ((m0 :: ms').map (fun m => (m, m)))) := by
      simp [expandForEquality, hi, hj, hks, hck]
    unfold typesEqual
    rw [if_neg hne, he]
    apply eqLoop_id_pairs
    · intro p hp
      simp only [List.mem_reverse, List.mem_map] at hp
      obtain ⟨q, _, rfl⟩ := hp
      rfl
    · simpa using hfuel

/-- C3 (counterexample): for a union t (here named ["A"], members
{bool, integer}, no null) and supplied names ["B"], the round trip
removeNull (makeNullable t ["B"] false) yields a union whose name set is
["B"], which is NOT equal to t — the claim fails when t is a union whose
name set differs from the supplied one. -/
theorem claim3_union_names_counterexample :
    makeNullable [.primitiveType .bool, .primitiveType .integer,
        .unionType ["A"] false [0, 1]] 2 ["B"] false =
      some ([.primitiveType .bool, .primitiveType .integer,
             .unionType ["A"] false [0, 1], .primitiveType .null,
             .unionType ["B"] false [0, 1, 3]], 4) ∧
    removeNull [.primitiveType .bool, .primitiveType .integer,
        .unionType ["A"] false [0, 1], .primitiveType .null,
        .unionType ["B"] false [0, 1, 3]] 4 =
      some ([.primitiveType .bool, .primitiveType .integer,
             .unionType ["A"] false [0, 1], .primitiveType .null,
             .unionType ["B"] false [0, 1, 3],
             .unionType ["B"] false [0, 1]], 5) ∧
    typesEqual [.primitiveType .bool, .primitiveType .integer,
        .unionType ["A"] false [0, 1], .primitiveType .null,
        .unionType ["B"] false [0, 1, 3],
        .unionType ["B"] false [0, 1]] 6 5 2 = some false := by
  refine ⟨by decide, by decide, by decide⟩

/-- C3 (amended): removeNull (makeNullable t n false) yields a node equal
to t whenever t is not the null primitive and not a union containing null,
PROVIDED that if t is a union its name set equals the supplied n (for a
non-union t the round trip returns t itself, so any n works).  The union
side condition is what the counterexample forces; the union hypotheses on
member validity, non-null kinds and distinct kinds are the source's
construction invariants. -/
theorem claim3_make_remove_null_round_trip (g : Graph) (i : Nat)
    (tn : List String) (d : NodeDef) (fuel : Nat)
    (hd : g[i]? = some d)
    (hnn : d.kind ≠ "null")
    (hu : ∀ ns uinf ms, d = .unionType ns uinf ms →
      ns = tn ∧ 2 ≤ ms.length ∧
      (∀ m ∈ ms, m < g.length ∧ kindOf g m ≠ some "null") ∧
      ms.Pairwise (fun a b => kindOf g a ≠ kindOf g b))
    (hfuel : g.length + 2 ≤ fuel) :
    ∃ gm u g₂ r, makeNullable g i tn false = some (gm, u) ∧
      removeNull gm u = some (g₂, r) ∧
      typesEqual g₂ fuel r i = some true := by
  have hilt : i < g.length := (List.getElem?_eq_some.mp hd).1
  rcases hdu : d with _ | _ | _ | _ | _ | ⟨ns, uinf, ms⟩
  case unionType =>
    obtain ⟨hns, hms2, hmem, hpw⟩ := hu ns uinf ms hdu
    subst hdu
    rw [hns] at hd
    -- makeNullable: no null member, so a fresh null and a fresh union are made
    have hfind : findMember g ms "null" = none := by
      unfold findMember
      rw [List.find?_eq_none]
      intro m hm
      simp [(hmem m hm).2]
    have h1 : makeNullable g i tn false =
        some (g ++ [.primitiveType .null,
              .unionType tn false (ms ++ [g.length])], g.length + 1) := by
      simp [makeNullable, hd, NodeDef.kind, removeNullFromUnion, hfind]
    -- removeNull on the fresh union strips exactly the fresh null
    set A : NodeDef := .primitiveType .null with hA
    set B : NodeDef := .unionType tn false (ms ++ [g.length]) with hB
    have hgmB : (g ++ [A, B])[g.length + 1]? = some B := getElem?_append2_snd g A B
    have hgmA : (g ++ [A, B])[g.length]? = some A := getElem?_append2_fst g A B
    have hkA : kindOf (g ++ [A, B]) g.length = some "null" := by
      simp [kindOf, hgmA, hA, NodeDef.kind, PrimitiveKind.toStr]
    have hkm : ∀ m ∈ ms, kindOf (g ++ [A, B]) m = kindOf g m := fun m hm =>
      kindOf_append g [A, B] m (hmem m hm).1
    have hfind2 : findMember (g ++ [A, B]) (ms ++ [g.length]) "null" =
        some g.length := by
      unfold findMember
      rw [List.find?_append]
      have hnone : ms.find? (fun m => kindOf (g ++ [A, B]) m == some "null") = none := by
        rw [List.find?_eq_none]
        intro m hm
        simp [hkm m hm, (hmem m hm).2]
      rw [hnone]
      simp [List.find?_cons, hkA]
    have hfilter : (ms ++ [g.length]).filter
        (fun m => !(kindOf (g ++ [A, B]) m == some "null")) = ms := by
      rw [List.filter_append]
      have h2 : ms.filter (fun m => !(kindOf (g ++ [A, B]) m == some "null")) = ms := by
        rw [List.filter_eq_self]
        intro m hm
        simp [hkm m hm, (hmem m hm).2]
      rw [h2]
      simp [List.filter_cons, hkA]
    obtain ⟨x, y, xs, rfl⟩ : ∃ x y xs, ms = x :: y :: xs := by
      rcases ms with _ | ⟨x, _ | ⟨y, xs⟩⟩
      · simp at hms2
      · simp at hms2
      · exact ⟨_, _, _, rfl⟩
    have h2 : removeNull (g ++ [A, B]) (g.length + 1) =
        some ((g ++ [A, B]) ++ [.unionType tn false (x :: y :: xs)],
              (g ++ [A, B]).length) := by
      simp only [removeNull, hgmB, hB, removeNullFromUnion, hfind2, hfilter]
    refine ⟨_, _, _, _, h1, h2, ?_⟩
    -- the rebuilt union has the same names and the same member objects as t
    have hlen : (g ++ [A, B]).length = g.length + 2 := by simp
    rw [hlen]
    have hassoc : (g ++ [A, B]) ++ [NodeDef.unionType tn false (x :: y :: xs)] =
        g ++ [A, B, .unionType tn false (x :: y :: xs)] := by simp
    rw [hassoc]
    set C : NodeDef := .unionType tn false (x :: y :: xs) with hC
    have hr : (g ++ [A, B, C])[g.length + 2]? = some C := by
      rw [List.getElem?_append_right (by omega)]
      have h3 : g.length + 2 - g.length = 2 := by omega
      rw [h3]
      rfl
    have hi2 : (g ++ [A, B, C])[i]? = some (.unionType tn uinf (x :: y :: xs)) := by
      rw [List.getElem?_append_left hilt]
      exact hd
    have hkm3 : ∀ m ∈ x :: y :: xs, kindOf (g ++ [A, B, C]) m = kindOf g m :=
      fun m hm => kindOf_append g [A, B, C] m (hmem m hm).1
    have hneq : g.length + 2 ≠ i := by omega
    have htot2 : ∀ m ∈ x :: y :: xs, ∃ k, kindOf (g ++ [A, B, C]) m = some k := by
      intro m hm
      rw [hkm3 m hm]
      have hmlt : m < g.length := (hmem m hm).1
      exact ⟨(g.get ⟨m, hmlt⟩).kind, by simp [kindOf, List.getElem?_eq_getElem hmlt]⟩
    have hpw2 : (x :: y :: xs).Pairwise
        (fun a b => kindOf (g ++ [A, B, C]) a ≠ kindOf (g ++ [A, B, C]) b) := by
      refine hpw.imp_of_mem ?_
      intro a b ha hb hab
      rw [hkm3 a ha, hkm3 b hb]
      exact hab
    have hflt : (x :: y :: xs).length < fuel := by
      have hnd : (x :: y :: xs).Nodup := pairwise_kind_nodup g _ hpw
      have := nodup_lt_length_le (x :: y :: xs) g.length hnd
        (fun m hm => (hmem m hm).1)
      omega
    exact typesEqual_union_same_members (g ++ [A, B, C]) (g.length + 2) i tn
        false uinf (x :: y :: xs) fuel hneq hr hi2 htot2 hpw2 hflt
  all_goals {
    -- non-union cases: the round trip returns the original node itself
    subst hdu
    refine ⟨g ++ [.primitiveType .null, .unionType tn false [i, g.length]],
      g.length + 1, g ++ [.primitiveType .null, .unionType tn false [i, g.length]],
      i, ?_, ?_, ?_⟩
    · simp [makeNullable, hd, hnn]
    · set A : NodeDef := .primitiveType .null with hA
      set B : NodeDef := .unionType tn false [i, g.length] with hB
      have hgmB : (g ++ [A, B])[g.length + 1]? = some B := getElem?_append2_snd g A B
      have hgmA : (g ++ [A, B])[g.length]? = some A := getElem?_append2_fst g A B
      have hkA : kindOf (g ++ [A, B]) g.length = some "null" := by
        simp [kindOf, hgmA, hA, NodeDef.kind, PrimitiveKind.toStr]
      have hki : kindOf (g ++ [A, B]) i ≠ some "null" := by
        rw [kindOf_append g [A, B] i hilt]
        simpa [kindOf, hd] using hnn
      have hfind2 : findMember (g ++ [A, B]) [i, g.length] "null" = some g.length := by
        unfold findMember
        have hpi : (kindOf (g ++ [A, B]) i == some "null") = false := by
          simpa using hki
        simp [List.find?_cons, hpi, hkA]
      have hfilter : [i, g.length].filter
          (fun m => !(kindOf (g ++ [A, B]) m == some "null")) = [i] := by
        have hpi : (kindOf (g ++ [A, B]) i == some "null") = false := by
          simpa using hki
        simp [List.filter_cons, hpi, hkA]
      simp only [removeNull, hgmB, hB, removeNullFromUnion, hfind2, hfilter]
    · unfold typesEqual
      rw [if_pos rfl]
  }

/-- Witness for the amended C3, union branch, with matching names: the
round trip on a union named ["A"] with supplied names ["A"] yields an
equal node. -/
theorem claim3_make_remove_null_round_trip_witness :
    ∃ gm u g₂ r,
      makeNullable [.primitiveType .bool, .primitiveType .integer,
        .unionType ["A"] false [0, 1]] 2 ["A"] false = some (gm, u) ∧
      removeNull gm u = some (g₂, r) ∧
      typesEqual g₂ 5 r 2 = some true :=
  claim3_make_remove_null_round_trip
    [.primitiveType .bool, .primitiveType .integer, .unionType ["A"] false [0, 1]]
    2 ["A"] (.unionType ["A"] false [0, 1]) 5 (by decide) (by decide)
    (by intro ns uinf ms h
        injection h with h1 h2 h3
        subst h1; subst h3
        exact ⟨rfl, by decide, by decide, by decide⟩)
    (by decide)

/-! ## Claim C4 -/

theorem lcpLen_le_left : ∀ a b : List Char, lcpLen a b ≤ a.length := by
  intro a
  induction a with
  | nil => intro b; cases b <;> simp [lcpLen]
  | cons x xs ih =>
    intro b
    cases b with
    | nil => simp [lcpLen]
    | cons y ys =>
      by_cases h : x = y <;> simp [lcpLen, h]
      exact ih ys

theorem lcpLen_le_right : ∀ a b : List Char, lcpLen a b ≤ b.length := by
  intro a
  induction a with
  | nil => intro b; cases b <;> simp [lcpLen]
  | cons x xs ih =>
    intro b
    cases b with
    | nil => simp [lcpLen]
    | cons y ys =>
      by_cases h : x = y <;> simp [lcpLen, h]
      exact ih ys

theorem preScan_min_lcp : ∀ (pl : Nat) (a b : List Char),
    pl ≤ a.length → pl ≤ b.length → preScan a b pl = min pl (lcpLen a b) := by
  intro pl
  induction pl with
  | zero => intro a b _ _; simp [preScan]
  | succ pl ih =>
    intro a b ha hb
    rcases a with _ | ⟨x, xs⟩
    · simp at ha
    rcases b with _ | ⟨y, ys⟩
    · simp at hb
    simp only [List.length_cons, Nat.succ_le_succ_iff] at ha hb
    by_cases h : x = y
    · simp only [preScan, lcpLen, if_pos h, ih xs ys ha hb]
      omega
    · simp [preScan, lcpLen, h]

theorem foldl_prod_split (f g : Nat → String → Nat) :
    ∀ (l : List String) (p : Nat × Nat),
      l.foldl (fun a n => (f a.1 n, g a.2 n)) p =
        (l.foldl f p.1, l.foldl g p.2) := by
  intro l
  induction l with
  | nil => intro p; rfl
  | cons n rest ih => intro p; exact ih (f p.1 n, g p.2 n)

theorem foldl_scan_min (fst : List Char) (dat : String → List Char)
    (hdat : ∀ n, (dat n).length = n.length) :
    ∀ (rest : List String) (acc : Nat), acc ≤ fst.length →
      rest.foldl (fun pl n => preScan fst (dat n) (min pl n.length)) acc =
        rest.foldl (fun m n => min m (lcpLen fst (dat n))) acc := by
  intro rest
  induction rest with
  | nil => intro acc _; rfl
  | cons n rest ih =>
    intro acc hacc
    have h1 : min acc n.length ≤ fst.length := le_trans (Nat.min_le_left _ _) hacc
    have h2 : min acc n.length ≤ (dat n).length := by
      rw [hdat n]; exact Nat.min_le_right _ _
    have hstep : preScan fst (dat n) (min acc n.length) = min acc (lcpLen fst (dat n)) := by
      rw [preScan_min_lcp (min acc n.length) fst (dat n) h1 h2]
      have hl : lcpLen fst (dat n) ≤ n.length := by
        have := lcpLen_le_right fst (dat n)
        rwa [hdat n] at this
      omega
    simp only [List.foldl_cons, hstep]
    exact ih (min acc (lcpLen fst (dat n))) (le_trans (Nat.min_le_left _ _) hacc)

/-- C4: combineNames agrees with its specification — the longest common
prefix and suffix lengths over all names relative to the first are the
minima of the pairwise longest-common-prefix/suffix lengths; each piece is
kept only when longer than 2; the concatenation is returned when longer
than 2, else the first name; a single name is returned verbatim — together
with the three concrete examples of the claim. -/
theorem claim4_combineNames_spec :
    (∀ first rest, combineNames (first :: rest) = some (specCombinedName first rest)) ∧
    combineNames ["HelloWorld", "HelloMoon"] = some "Hello" ∧
    combineNames ["Foo"] = some "Foo" ∧
    combineNames ["AB", "CD"] = some "AB" := by
  refine ⟨?_, by decide, by decide, by decide⟩
  intro first rest
  by_cases hrest : rest = []
  · simp [combineNames, specCombinedName, hrest]
  · simp only [combineNames, specCombinedName, if_neg hrest]
    rw [foldl_prod_split
      (fun pl n => preScan first.data n.data (min pl n.length))
      (fun sl n => preScan first.data.reverse n.data.reverse (min sl n.length))
      rest (first.length, first.length)]
    rw [foldl_scan_min first.data String.data (fun _ => rfl) rest first.length
      (Nat.le_refl _)]
    rw [foldl_scan_min first.data.reverse (fun n => n.data.reverse)
      (fun n => by simp) rest first.length (by simp)]

/-! ## Claim C6 : traversal lemmas -/

theorem addFromType_succ (chf : Nat → Option (List Nat)) (p : Nat → Bool)
    (fuel : Nat) (st : TravSt) (t : Nat) :
    addFromType chf p (fuel + 1) st t =
      if t ∈ st.seen then some st
      else
        match chf t with
        | none => none
        | some cs =>
          match cs.foldlM (fun s c => addFromType chf p fuel s c)
              { st with seen := t :: st.seen } with
          | none => none
          | some st2 =>
            some ⟨st2.seen, st2.trace ++ [t],
                  if p t then st2.types ++ [t] else st2.types⟩ := rfl

theorem addFromType_some_inv (chf : Nat → Option (List Nat)) (p : Nat → Bool)
    (fuel : Nat) (st : TravSt) (t : Nat) (st' : TravSt)
    (h : addFromType chf p (fuel + 1) st t = some st') :
    (t ∈ st.seen ∧ st' = st) ∨
    (t ∉ st.seen ∧ ∃ cs st2, chf t = some cs ∧
      cs.foldlM (fun s c => addFromType chf p fuel s c)
        { st with seen := t :: st.seen } = some st2 ∧
      st' = ⟨st2.seen, st2.trace ++ [t],
             if p t then st2.types ++ [t] else st2.types⟩) := by
  rw [addFromType_succ] at h
  by_cases hts : t ∈ st.seen
  · rw [if_pos hts] at h
    exact Or.inl ⟨hts, (Option.some.inj h).symm⟩
  · rw [if_neg hts] at h
    cases hch : chf t with
    | none => rw [hch] at h; cases h
    | some cs =>
      rw [hch] at h
      dsimp only at h
      cases hfold : cs.foldlM (fun s c => addFromType chf p fuel s c)
          { st with seen := t :: st.seen } with
      | none => rw [hfold] at h; cases h
      | some st2 =>
        rw [hfold] at h
        dsimp only at h
        exact Or.inr ⟨hts, cs, st2, rfl, hfold, (Option.some.inj h).symm⟩

theorem foldlM_rel {α : Type} {P : TravSt → TravSt → Prop}
    (hrefl : ∀ s, P s s)
    (htrans : ∀ a b c, P a b → P b c → P a c)
    (f : TravSt → α → Option TravSt) :
    ∀ (cs : List α), (∀ s c s', c ∈ cs → f s c = some s' → P s s') →
      ∀ s s', cs.foldlM f s = some s' → P s s' := by
  intro cs
  induction cs with
  | nil =>
    intro _ s s' h
    simp only [List.foldlM_nil] at h
    cases h
    exact hrefl s
  | cons c cs ih =>
    intro hf s s' h
    rw [List.foldlM_cons] at h
    cases hmid : f s c with
    | none => rw [hmid] at h; cases h
    | some smid =>
      rw [hmid] at h
      simp only [Option.bind_eq_bind, Option.some_bind] at h
      exact htrans _ _ _ (hf s c smid (by simp) hmid)
        (ih (fun s c' s'' hc' => hf s c' s'' (by simp [hc'])) smid s' h)

theorem addFromType_mono (chf : Nat → Option (List Nat)) (p : Nat → Bool) :
    ∀ (fuel : Nat) (st : TravSt) (t : Nat) (st' : TravSt),
      addFromType chf p fuel st t = some st' →
      st.seen ⊆ st'.seen ∧ ∃ dl, st'.trace = st.trace ++ dl := by
  intro fuel
  induction fuel with
  | zero => intro st t st' h; cases h
  | succ fuel ih =>
    intro st t st' h
    rcases addFromType_some_inv chf p fuel st t st' h with ⟨_, rfl⟩ | ⟨_, cs, st2, _, hfold, rfl⟩
    · exact ⟨fun _ hx => hx, [], by simp⟩
    · have hrel := foldlM_rel
        (P := fun a b => a.seen ⊆ b.seen ∧ ∃ dl, b.trace = a.trace ++ dl)
        (fun s => ⟨fun _ hx => hx, [], by simp⟩)
        (fun a b c hab hbc =>
          ⟨fun x hx => hbc.1 (hab.1 hx), by
            obtain ⟨d1, h1⟩ := hab.2
            obtain ⟨d2, h2⟩ := hbc.2
            exact ⟨d1 ++ d2, by rw [h2, h1, List.append_assoc]⟩⟩)
        (fun s c => addFromType chf p fuel s c) cs
        (fun s c s'' _ hc => ih s c s'' hc)
        { st with seen := t :: st.seen } st2 hfold
      obtain ⟨hsub, dl, hdl⟩ := hrel
      refine ⟨fun x hx => hsub (by simp [hx]), dl ++ [t], ?_⟩
      simp only []
      rw [hdl]
      simp [List.append_assoc]

theorem addFromType_self_seen (chf : Nat → Option (List Nat)) (p : Nat → Bool)
    (fuel : Nat) (st : TravSt) (t : Nat) (st' : TravSt)
    (h : addFromType chf p fuel st t = some st') : t ∈ st'.seen := by
  cases fuel with
  | zero => cases h
  | succ fuel =>
    rcases addFromType_some_inv chf p fuel st t st' h with ⟨hts, rfl⟩ | ⟨_, cs, st2, _, hfold, rfl⟩
    · exact hts
    · have hrel := foldlM_rel (P := fun a b => a.seen ⊆ b.seen)
        (fun _ _ hx => hx) (fun _ _ _ hab hbc x hx => hbc (hab hx))
        (fun s c => addFromType chf p fuel s c) cs
        (fun s c s'' _ hc => (addFromType_mono chf p fuel s c s'' hc).1)
        { st with seen := t :: st.seen } st2 hfold
    -- t is in the pre-fold seen set, which only grows
      exact hrel (by simp)

theorem addFromType_nodup (chf : Nat → Option (List Nat)) (p : Nat → Bool) :
    ∀ (fuel : Nat) (st : TravSt) (t : Nat) (st' : TravSt),
      addFromType chf p fuel st t = some st' →
      st.seen.Nodup → st'.seen.Nodup := by
  intro fuel
  induction fuel with
  | zero => intro st t st' h; cases h
  | succ fuel ih =>
    intro st t st' h hnd
    rcases addFromType_some_inv chf p fuel st t st' h with ⟨_, rfl⟩ | ⟨hts, cs, st2, _, hfold, rfl⟩
    · exact hnd
    · have hrel := foldlM_rel (P := fun a b => a.seen.Nodup → b.seen.Nodup)
        (fun _ hx => hx) (fun _ _ _ hab hbc hx => hbc (hab hx))
        (fun s c => addFromType chf p fuel s c) cs
        (fun s c s'' _ hc => ih s c s'' hc)
        { st with seen := t :: st.seen } st2 hfold
      exact hrel (by simp [hnd, hts])

theorem addFromType_seen_perm_trace (chf : Nat → Option (List Nat)) (p : Nat → Bool) :
    ∀ (fuel : Nat) (st : TravSt) (t : Nat) (st' : TravSt),
      addFromType chf p fuel st t = some st' →
      ∀ pend, st.seen.Perm (pend ++ st.trace) →
        st'.seen.Perm (pend ++ st'.trace) := by
  intro fuel
  induction fuel with
  | zero => intro st t st' h; cases h
  | succ fuel ih =>
    intro st t st' h pend hperm
    rcases addFromType_some_inv chf p fuel st t st' h with ⟨_, rfl⟩ | ⟨_, cs, st2, _, hfold, rfl⟩
    · exact hperm
    · have hrel := foldlM_rel
        (P := fun a b => ∀ pd, a.seen.Perm (pd ++ a.trace) → b.seen.Perm (pd ++ b.trace))
        (fun _ _ hx => hx) (fun _ _ _ hab hbc pd hx => hbc pd (hab pd hx))
        (fun s c => addFromType chf p fuel s c) cs
        (fun s c s'' _ hc => ih s c s'' hc)
        { st with seen := t :: st.seen } st2 hfold
      have h1 : (t :: st.seen).Perm ((t :: pend) ++ st.trace) := by
        simpa using hperm.cons t
      have h2 := hrel (t :: pend) h1
      -- move t from the front of the pending block to the end of the trace
      have h3 : ((t :: pend) ++ st2.trace).Perm (pend ++ (st2.trace ++ [t])) := by
        have ha : (t :: pend) ++ st2.trace = t :: (pend ++ st2.trace) := by simp
        rw [ha, ← List.append_assoc]
        exact (List.perm_append_singleton t _).symm
      exact h2.trans h3

theorem reachable_lift (chf : Nat → Option (List Nat)) (t c : Nat) (cs : List Nat)
    (hch : chf t = some cs) (hc : c ∈ cs) :
    ∀ x, Reachable chf [c] x → Reachable chf [t] x := by
  intro x hx
  induction hx with
  | root hr =>
    rw [List.mem_singleton] at hr
    subst hr
    exact Reachable.step (Reachable.root (by simp)) hch hc
  | step _ hu hcin ihx => exact Reachable.step ihx hu hcin

theorem reachable_roots_mono (chf : Nat → Option (List Nat)) (t : Nat)
    (roots : List Nat) (ht : t ∈ roots) :
    ∀ x, Reachable chf [t] x → Reachable chf roots x := by
  intro x hx
  induction hx with
  | root hr =>
    rw [List.mem_singleton] at hr
    subst hr
    exact Reachable.root ht
  | step _ hu hcin ihx => exact Reachable.step ihx hu hcin

theorem addFromType_sound (chf : Nat → Option (List Nat)) (p : Nat → Bool) :
    ∀ (fuel : Nat) (st : TravSt) (t : Nat) (st' : TravSt),
      addFromType chf p fuel st t = some st' →
      ∀ x ∈ st'.seen, x ∈ st.seen ∨ Reachable chf [t] x := by
  intro fuel
  induction fuel with
  | zero => intro st t st' h; cases h
  | succ fuel ih =>
    intro st t st' h x hx
    rcases addFromType_some_inv chf p fuel st t st' h with ⟨_, rfl⟩ | ⟨_, cs, st2, hch, hfold, rfl⟩
    · exact Or.inl hx
    · have hrel := foldlM_rel
        (P := fun a b => ∀ x ∈ b.seen, x ∈ a.seen ∨ Reachable chf [t] x)
        (fun _ _ hx' => Or.inl hx')
        (fun a b c hab hbc y hy => by
          rcases hbc y hy with hy' | hy'
          · exact hab y hy'
          · exact Or.inr hy')
        (fun s c => addFromType chf p fuel s c) cs
        (fun s c s'' hcmem hc y hy => by
          rcases ih s c s'' hc y hy with hy' | hy'
          · exact Or.inl hy'
          · exact Or.inr (reachable_lift chf t c cs hch hcmem y hy'))
        { st with seen := t :: st.seen } st2 hfold
      rcases hrel x hx with hx' | hx'
      · simp only [List.mem_cons] at hx'
        rcases hx' with rfl | hx'
        · exact Or.inr (Reachable.root (by simp))
        · exact Or.inl hx'
      · exact Or.inr hx'

theorem addFromType_closed (chf : Nat → Option (List Nat)) (p : Nat → Bool) :
    ∀ (fuel : Nat) (st : TravSt) (t : Nat) (st' : TravSt),
      addFromType chf p fuel st t = some st' →
      st.seen ⊆ st'.seen ∧
      ∀ u ∈ st'.seen, u ∉ st.seen → ∀ cs, chf u = some cs → ∀ c ∈ cs, c ∈ st'.seen := by
  intro fuel
  induction fuel with
  | zero => intro st t st' h; cases h
  | succ fuel ih =>
    intro st t st' h
    rcases addFromType_some_inv chf p fuel st t st' h with ⟨_, rfl⟩ | ⟨hts, cs, st2, hch, hfold, rfl⟩
    · exact ⟨fun _ hx => hx, fun u hu hnu => absurd hu hnu⟩
    · have hrel := foldlM_rel
        (P := fun a b => a.seen ⊆ b.seen ∧
          ∀ u ∈ b.seen, u ∉ a.seen → ∀ cs', chf u = some cs' → ∀ c ∈ cs', c ∈ b.seen)
        (fun s => ⟨fun _ hx => hx, fun u hu hnu => absurd hu hnu⟩)
        (fun a b c hab hbc => by
          refine ⟨fun x hx => hbc.1 (hab.1 hx), ?_⟩
          intro u hu hnu cs' hcs' c' hc'
          by_cases hub : u ∈ b.seen
          · exact hbc.1 (hab.2 u hub hnu cs' hcs' c' hc')
          · exact hbc.2 u hu hub cs' hcs' c' hc')
        (fun s c => addFromType chf p fuel s c) cs
        (fun s c s'' _ hc => ih s c s'' hc)
        { st with seen := t :: st.seen } st2 hfold
      -- every direct child of t ends up in the post-fold seen set
      have hchildren : ∀ c ∈ cs, c ∈ st2.seen := by
        have haux : ∀ (l : List Nat) (s s' : TravSt),
            l.foldlM (fun a c => addFromType chf p fuel a c) s = some s' →
            ∀ c ∈ l, c ∈ s'.seen := by
          intro l
          induction l with
          | nil => intro s s' _ c hc; cases hc
          | cons c0 l ihl =>
            intro s s' hf c hc
            rw [List.foldlM_cons] at hf
            cases hmid : addFromType chf p fuel s c0 with
            | none => rw [hmid] at hf; cases hf
            | some smid =>
              rw [hmid] at hf
              simp only [Option.bind_eq_bind, Option.some_bind] at hf
              rcases List.mem_cons.mp hc with rfl | hc'
              · have h1 := addFromType_self_seen chf p fuel s c smid hmid
                have h2 := foldlM_rel (P := fun a b => a.seen ⊆ b.seen)
                  (fun _ _ hx => hx) (fun _ _ _ hab hbc x hx => hbc (hab hx))
                  (fun a c => addFromType chf p fuel a c) l
                  (fun a c' s'' _ hcc => (addFromType_mono chf p fuel a c' s'' hcc).1)
                  smid s' hf
                exact h2 h1
              · exact ihl smid s' hf c hc'
        exact haux cs _ st2 hfold
      constructor
      · intro x hx
        exact hrel.1 (by simp [hx])
      · intro u hu hnu cs' hcs' c' hc'
        simp only [] at hu ⊢
        by_cases hut : u = t
        · subst hut
          rw [hch] at hcs'
          cases hcs'
          exact hchildren c' hc'
        · have hu1 : u ∉ ({ st with seen := t :: st.seen } : TravSt).seen := by
            simp [hut, hnu]
          exact hrel.2 u hu hu1 cs' hcs' c' hc'

theorem filter_len_mono (q q' : Nat → Bool) :
    ∀ l : List Nat, (∀ x ∈ l, q' x = true → q x = true) →
      (l.filter q').length ≤ (l.filter q).length := by
  intro l
  induction l with
  | nil => intro _; simp
  | cons h tail ih =>
    intro himp
    have ihl := ih (fun x hx => himp x (by simp [hx]))
    by_cases hq' : q' h = true
    · have hq : q h = true := himp h (by simp) hq'
      simp [List.filter_cons, hq, hq']
      omega
    · rw [List.filter_cons, if_neg (by simp_all)]
      by_cases hq : q h = true
      · simp [List.filter_cons, hq]
        omega
      · rw [List.filter_cons, if_neg (by simp_all)]
        exact ihl

theorem filter_len_strict (q q' : Nat → Bool) :
    ∀ l : List Nat, (∀ x ∈ l, q' x = true → q x = true) →
      ∀ a ∈ l, q a = true → q' a = false →
      (l.filter q').length < (l.filter q).length := by
  intro l
  induction l with
  | nil => intro _ a ha; cases ha
  | cons h tail ih =>
    intro himp a ha hqa hq'a
    have himpt : ∀ x ∈ tail, q' x = true → q x = true :=
      fun x hx => himp x (by simp [hx])
    rcases List.mem_cons.mp ha with rfl | hat
    · rw [List.filter_cons, if_neg (by simp [hq'a]), List.filter_cons, if_pos (by simp [hqa])]
      have := filter_len_mono q q' tail himpt
      simpa using Nat.lt_succ_of_le this
    · by_cases hq'h : q' h = true
      · have hqh : q h = true := himp h (by simp) hq'h
        rw [List.filter_cons, if_pos hq'h, List.filter_cons, if_pos hqh]
        simp only [List.length_cons]
        exact Nat.succ_lt_succ (ih himpt a hat hqa hq'a)
      · rw [List.filter_cons, if_neg (by simp_all)]
        by_cases hqh : q h = true
        · rw [List.filter_cons, if_pos (by simp [hqh])]
          exact Nat.lt_succ_of_lt (ih himpt a hat hqa hq'a)
        · rw [List.filter_cons, if_neg (by simp_all)]
          exact ih himpt a hat hqa hq'a

theorem addFromType_isSome (chf : Nat → Option (List Nat)) (p : Nat → Bool)
    (n : Nat) (hc : ∀ i, i < n → chOkB chf n i = true) :
    ∀ (fuel : Nat) (st : TravSt) (t : Nat), t < n →
      ((List.range n).filter (fun i => decide (i ∉ st.seen))).length < fuel →
      (addFromType chf p fuel st t).isSome := by
  intro fuel
  induction fuel with
  | zero => intro st t _ hcount; omega
  | succ fuel ih =>
    intro st t htn hcount
    rw [addFromType_succ]
    by_cases hts : t ∈ st.seen
    · rw [if_pos hts]; exact rfl
    · rw [if_neg hts]
      have hok := hc t htn
      unfold chOkB at hok
      cases hch : chf t with
      | none => rw [hch] at hok; cases hok
      | some cs =>
        rw [hch] at hok
        simp only [List.all_eq_true, decide_eq_true_eq] at hok
        dsimp only
        -- marking t seen strictly shrinks the unseen count
        have hstrict :
            ((List.range n).filter
              (fun i => decide (i ∉ (t :: st.seen)))).length <
            ((List.range n).filter (fun i => decide (i ∉ st.seen))).length := by
          apply filter_len_strict _ _ (List.range n)
          · intro x _ hx
            simp only [decide_eq_true_eq] at hx ⊢
            intro hmem
            exact hx (by simp [hmem])
          · exact List.mem_range.mpr htn
          · simp [hts]
          · simp
        have haux : ∀ (l : List Nat), (∀ c ∈ l, c < n) → ∀ s : TravSt,
            ((List.range n).filter (fun i => decide (i ∉ s.seen))).length < fuel →
            (l.foldlM (fun a c => addFromType chf p fuel a c) s).isSome := by
          intro l
          induction l with
          | nil => intro _ s _; simp [List.foldlM_nil]
          | cons c l ihl =>
            intro hlt s hcnt
            rw [List.foldlM_cons]
            have h1 := ih s c (hlt c (by simp)) hcnt
            obtain ⟨smid, hmid⟩ := Option.isSome_iff_exists.mp h1
            rw [hmid]
            simp only [Option.bind_eq_bind, Option.some_bind]
            apply ihl (fun c' hc' => hlt c' (by simp [hc'])) smid
            have hsub := (addFromType_mono chf p fuel s c smid hmid).1
            have hmono := filter_len_mono
              (fun i => decide (i ∉ s.seen))
              (fun i => decide (i ∉ smid.seen))
              (List.range n)
              (fun x _ hx => by
                simp only [decide_eq_true_eq] at hx ⊢
                exact fun hmem => hx (hsub hmem))
            omega
        have hfold := haux cs (fun c hcm => hok c hcm)
          { st with seen := t :: st.seen } (by simp only []; omega)
        obtain ⟨st2, hst2⟩ := Option.isSome_iff_exists.mp hfold
        rw [hst2]
        exact rfl

/-- C6: over any finite, closed children function (the default `children`
edge set or any override), the whole-graph walk of filterTypes terminates
with fuel one larger than the node bound, and the predicate is evaluated
on each reachable node exactly once: the evaluation trace has no
duplicates, and a node is in the trace exactly when it is reachable from
the top-level roots — cycle-safety comes from a node being marked seen
before its children are traversed. -/
theorem claim6_filterTypes_visits_each_reachable_once
    (chf : Nat → Option (List Nat)) (p : Nat → Bool) (n : Nat)
    (tops : List (String × Nat))
    (hc : ∀ i, i < n → chOkB chf n i = true)
    (hr : ∀ r ∈ tops, r.2 < n) :
    ∃ st, traverseAll chf p (n + 1) tops = some st ∧
      st.trace.Nodup ∧
      (∀ t, t ∈ st.trace ↔ Reachable chf (tops.map Prod.snd) t) ∧
      ∀ g : Graph, childrenOf g = chf → (filterTypes g p (n + 1) tops).isSome := by
  -- termination of the fold over the top-level roots
  have htrav : ∀ (l : List (String × Nat)), (∀ r ∈ l, r.2 < n) → ∀ s : TravSt,
      (l.foldlM (fun a r => addFromType chf p (n + 1) a r.2) s).isSome := by
    intro l
    induction l with
    | nil => intro _ s; simp [List.foldlM_nil]
    | cons r l ihl =>
      intro hlt s
      rw [List.foldlM_cons]
      have hcnt : ((List.range n).filter (fun i => decide (i ∉ s.seen))).length < n + 1 := by
        have := List.length_filter_le (fun i => decide (i ∉ s.seen)) (List.range n)
        simp only [List.length_range] at this
        omega
      have h1 := addFromType_isSome chf p n hc (n + 1) s r.2 (hlt r (by simp)) hcnt
      obtain ⟨smid, hmid⟩ := Option.isSome_iff_exists.mp h1
      rw [hmid]
      simp only [Option.bind_eq_bind, Option.some_bind]
      exact ihl (fun r' hr' => hlt r' (by simp [hr'])) smid
  obtain ⟨st, hst⟩ := Option.isSome_iff_exists.mp
    (htrav tops hr ⟨[], [], []⟩)
  refine ⟨st, hst, ?_⟩
  -- seen is a permutation of the trace and is duplicate-free
  have hperm : st.seen.Perm st.trace := by
    have hrel := foldlM_rel
      (P := fun a b => a.seen.Perm a.trace → b.seen.Perm b.trace)
      (fun _ hx => hx) (fun _ _ _ hab hbc hx => hbc (hab hx))
      (fun a (r : String × Nat) => addFromType chf p (n + 1) a r.2) tops
      (fun s r s' _ hcall hx => by
        have := addFromType_seen_perm_trace chf p (n + 1) s r.2 s' hcall [] (by simpa using hx)
        simpa using this)
      ⟨[], [], []⟩ st hst
    exact hrel (by simp)
  have hnd : st.seen.Nodup := by
    have hrel := foldlM_rel
      (P := fun a b => a.seen.Nodup → b.seen.Nodup)
      (fun _ hx => hx) (fun _ _ _ hab hbc hx => hbc (hab hx))
      (fun a (r : String × Nat) => addFromType chf p (n + 1) a r.2) tops
      (fun s r s' _ hcall => addFromType_nodup chf p (n + 1) s r.2 s' hcall)
      ⟨[], [], []⟩ st hst
    exact hrel (by simp)
  -- every seen node is reachable from the roots
  have hsound : ∀ x ∈ st.seen, Reachable chf (tops.map Prod.snd) x := by
    have hrel := foldlM_rel
      (P := fun a b => ∀ x ∈ b.seen,
        x ∈ a.seen ∨ Reachable chf (tops.map Prod.snd) x)
      (fun _ _ hx => Or.inl hx)
      (fun a b c hab hbc y hy => by
        rcases hbc y hy with hy' | hy'
        · exact hab y hy'
        · exact Or.inr hy')
      (fun a (r : String × Nat) => addFromType chf p (n + 1) a r.2) tops
      (fun s r s' hrm hcall y hy => by
        rcases addFromType_sound chf p (n + 1) s r.2 s' hcall y hy with hy' | hy'
        · exact Or.inl hy'
        · exact Or.inr (reachable_roots_mono chf r.2 (tops.map Prod.snd)
            (List.mem_map_of_mem Prod.snd hrm) y hy'))
      ⟨[], [], []⟩ st hst
    intro x hx
    rcases hrel x hx with hx' | hx'
    · cases hx'
    · exact hx'
  -- the seen set is closed under the children function
  have hclosed : ∀ u ∈ st.seen, ∀ cs, chf u = some cs → ∀ c ∈ cs, c ∈ st.seen := by
    have hrel := foldlM_rel
      (P := fun a b => a.seen ⊆ b.seen ∧
        ∀ u ∈ b.seen, u ∉ a.seen → ∀ cs, chf u = some cs → ∀ c ∈ cs, c ∈ b.seen)
      (fun s => ⟨fun _ hx => hx, fun u hu hnu => absurd hu hnu⟩)
      (fun a b c hab hbc => by
        refine ⟨fun x hx => hbc.1 (hab.1 hx), ?_⟩
        intro u hu hnu cs' hcs' c' hc'
        by_cases hub : u ∈ b.seen
        · exact hbc.1 (hab.2 u hub hnu cs' hcs' c' hc')
        · exact hbc.2 u hu hub cs' hcs' c' hc')
      (fun a (r : String × Nat) => addFromType chf p (n + 1) a r.2) tops
      (fun s r s' _ hcall => addFromType_closed chf p (n + 1) s r.2 s' hcall)
      ⟨[], [], []⟩ st hst
    intro u hu cs hcs c hc
    exact hrel.2 u hu (by simp) cs hcs c hc
  -- every root is in the seen set
  have hroots : ∀ r ∈ tops, r.2 ∈ st.seen := by
    have haux : ∀ (l : List (String × Nat)) (s s' : TravSt),
        l.foldlM (fun a r => addFromType chf p (n + 1) a r.2) s = some s' →
        ∀ r ∈ l, r.2 ∈ s'.seen := by
      intro l
      induction l with
      | nil => intro s s' _ r hrm; cases hrm
      | cons r0 l ihl =>
        intro s s' hf r hrm
        rw [List.foldlM_cons] at hf
        cases hmid : addFromType chf p (n + 1) s r0.2 with
        | none => rw [hmid] at hf; cases hf
        | some smid =>
          rw [hmid] at hf
          simp only [Option.bind_eq_bind, Option.some_bind] at hf
          rcases List.mem_cons.mp hrm with rfl | hrm'
          · have h1 := addFromType_self_seen chf p (n + 1) s r.2 smid hmid
            have h2 := foldlM_rel (P := fun a b => a.seen ⊆ b.seen)
              (fun _ _ hx => hx) (fun _ _ _ hab hbc x hx => hbc (hab hx))
              (fun a (q : String × Nat) => addFromType chf p (n + 1) a q.2) l
              (fun a q s'' _ hcc => (addFromType_mono chf p (n + 1) a q.2 s'' hcc).1)
              smid s' hf
            exact h2 h1
          · exact ihl smid s' hf r hrm'
    exact haux tops ⟨[], [], []⟩ st hst
  -- reachable nodes are all seen
  have hcompl : ∀ t, Reachable chf (tops.map Prod.snd) t → t ∈ st.seen := by
    intro t ht
    induction ht with
    | root hrt =>
      obtain ⟨r, hrm, hre⟩ := List.mem_map.mp hrt
      exact hre ▸ hroots r hrm
    | step _ hu hcin iht => exact hclosed _ iht _ hu _ hcin
  refine ⟨(hperm.nodup_iff).mp hnd, ?_, ?_⟩
  · intro t
    rw [← hperm.mem_iff]
    exact ⟨fun h => hsound t h, fun h => hcompl t h⟩
  · intro g hg
    rw [filterTypes, hg, traverseAll, hst]
    rfl

/-- Witness for C6 on the claim's concrete cyclic graph: a single class
whose only property is the class itself. -/
theorem claim6_filterTypes_visits_each_reachable_once_witness :
    ∃ st,
      traverseAll (childrenOf [.classType ["A"] false (some [("x", 0)])])
        (fun _ => true) 2 [("A", 0)] = some st ∧
      st.trace.Nodup ∧
      (∀ t, t ∈ st.trace ↔
        Reachable (childrenOf [.classType ["A"] false (some [("x", 0)])]) [0] t) ∧
      ∀ g : Graph,
        childrenOf g = childrenOf [.classType ["A"] false (some [("x", 0)])] →
        (filterTypes g (fun _ => true) 2 [("A", 0)]).isSome :=
  claim6_filterTypes_visits_each_reachable_once
    (childrenOf [.classType ["A"] false (some [("x", 0)])]) (fun _ => true) 1
    [("A", 0)] (by decide) (by decide)

/-! ## Claim C2 : hashing soundness lemmas -/

theorem U32_pos : 0 < U32 := by decide

theorem foldl_mod_lt {α : Type} (f : Nat → α → Nat)
    (hf : ∀ h a, f h a < U32) :
    ∀ (l : List α) (h0 : Nat), h0 < U32 → l.foldl f h0 < U32 := by
  intro l
  induction l with
  | nil => intro h0 hh; exact hh
  | cons a l ih => intro h0 _; exact ih (f h0 a) (hf h0 a)

theorem stringHash_lt (s : String) : stringHash s < U32 := by
  unfold stringHash
  exact foldl_mod_lt _ (fun h a => Nat.mod_lt _ U32_pos) s.data.reverse 5381 (by decide)

theorem collHash_lt (l : List String) : collHash l < U32 := by
  unfold collHash
  exact foldl_mod_lt _ (fun h a => Nat.mod_lt _ U32_pos) l 0 (by decide)

theorem foldlM_mod_lt {α : Type} (f : Nat → α → Option Nat)
    (hf : ∀ h a v, f h a = some v → v < U32) :
    ∀ (l : List α) (h0 : Nat), h0 < U32 → ∀ v, l.foldlM f h0 = some v → v < U32 := by
  intro l
  induction l with
  | nil =>
    intro h0 hh v hv
    simp only [List.foldlM_nil] at hv
    cases hv
    exact hh
  | cons a l ih =>
    intro h0 hh v hv
    rw [List.foldlM_cons] at hv
    cases hmid : f h0 a with
    | none => rw [hmid] at hv; cases hv
    | some m =>
      rw [hmid] at hv
      simp only [Option.bind_eq_bind, Option.some_bind] at hv
      exact ih m (hf h0 a m hmid) v hv

theorem hashAux_lt (g : Graph) :
    ∀ (fuel : Nat) (flat : Bool) (i : Nat) (h : Nat),
      hashAux g fuel flat i = some h → h < U32 := by
  intro fuel
  induction fuel with
  | zero => intro flat i h hh; cases hh
  | succ fuel ih =>
    intro flat i h hh
    rw [hashAux] at hh
    cases hdx : g[i]? with
    | none => rw [hdx] at hh; cases hh
    | some d =>
      rw [hdx] at hh
      simp only [Option.some_bind] at hh
      cases flat with
      | true =>
        cases d with
        | primitiveType k =>
          simp only at hh; cases hh; exact stringHash_lt _
        | arrayType it =>
          simp only at hh
          cases hmid : hashAux g fuel false it with
          | none => rw [hmid] at hh; cases hh
          | some h' => rw [hmid] at hh; simp only [Option.map_some'] at hh; cases hh
                       exact Nat.mod_lt _ U32_pos
        | mapType v =>
          simp only at hh
          cases hmid : hashAux g fuel false v with
          | none => rw [hmid] at hh; cases hh
          | some h' => rw [hmid] at hh; simp only [Option.map_some'] at hh; cases hh
                       exact Nat.mod_lt _ U32_pos
        | classType ns inf ps? =>
          simp only at hh
          cases ps? with
          | none => cases hh
          | some ps => simp only [Option.map_some'] at hh; cases hh
                       exact Nat.mod_lt _ U32_pos
        | enumType ns inf cs =>
          simp only at hh; cases hh; exact Nat.mod_lt _ U32_pos
        | unionType ns inf ms =>
          simp only at hh; cases hh; exact Nat.mod_lt _ U32_pos
      | false =>
        cases d with
        | classType ns inf ps? =>
          simp only at hh
          cases ps? with
          | none => cases hh
          | some ps =>
            simp only at hh
            cases hfh : hashAux g fuel true i with
            | none => rw [hfh] at hh; cases hh
            | some fh =>
              rw [hfh] at hh
              simp only [Option.some_bind] at hh
              exact foldlM_mod_lt _
                (fun h' a v hv => by
                  cases hm : hashAux g fuel true a.2 with
                  | none => rw [hm] at hv; cases hv
                  | some ch => rw [hm] at hv; simp only [Option.map_some'] at hv
                               cases hv; exact Nat.mod_lt _ U32_pos)
                ps fh (ih true i fh hfh) h hh
        | unionType ns inf ms =>
          simp only at hh
          cases hfh : hashAux g fuel true i with
          | none => rw [hfh] at hh; cases hh
          | some fh =>
            rw [hfh] at hh
            simp only [Option.some_bind] at hh
            exact foldlM_mod_lt _
              (fun h' a v hv => by
                cases hm : hashAux g fuel true a with
                | none => rw [hm] at hv; cases hv
                | some ch => rw [hm] at hv; simp only [Option.map_some'] at hv
                             cases hv; exact Nat.mod_lt _ U32_pos)
              ms fh (ih true i fh hfh) h hh
        | primitiveType k => simp only at hh; exact ih true i h hh
        | arrayType it => simp only at hh; exact ih true i h hh
        | mapType v => simp only at hh; exact ih true i h hh
        | enumType ns inf cs => simp only at hh; exact ih true i h hh

theorem foldlM_hash_contribs (contrib : α → Option Nat) (extra : α → Nat) :
    ∀ (l : List α) (h0 : Nat), h0 < U32 →
      l.foldlM (fun h a => (contrib a).map fun c => (h + c + extra a) % U32) h0 =
        (hashContribs (fun a => (contrib a).map fun c => c + extra a) l).map
          (fun cs => (h0 + cs.sum) % U32) := by
  intro l
  induction l with
  | nil =>
    intro h0 hh
    simp only [List.foldlM_nil, hashContribs, Option.map_some', List.sum_nil,
      Nat.add_zero, Nat.mod_eq_of_lt hh]
    rfl
  | cons a l ih =>
    intro h0 hh
    rw [List.foldlM_cons]
    simp only [hashContribs]
    cases hc : contrib a with
    | none => simp [hc]
    | some c =>
      simp only [hc, Option.map_some', Option.bind_eq_bind, Option.some_bind]
      rw [ih ((h0 + c + extra a) % U32) (Nat.mod_lt _ U32_pos)]
      cases hcl : hashContribs (fun a => (contrib a).map fun c => c + extra a) l with
      | none => simp [hcl]
      | some cs =>
        simp only [hcl, Option.map_some', Option.map_map, Function.comp_apply,
          List.sum_cons]
        congr 1
        rw [Nat.mod_add_mod]
        congr 1
        ring

theorem hashContribs_congr (f f' : α → Option Nat) :
    ∀ l : List α, (∀ a ∈ l, f a = f' a) → hashContribs f l = hashContribs f' l := by
  intro l
  induction l with
  | nil => intro _; rfl
  | cons a l ih =>
    intro h
    simp only [hashContribs, h a (by simp), ih (fun x hx => h x (by simp [hx]))]

theorem hashContribs_map (f : β → Option Nat) (m : α → β) :
    ∀ l : List α, hashContribs f (l.map m) = hashContribs (fun a => f (m a)) l := by
  intro l
  induction l with
  | nil => rfl
  | cons a l ih => simp only [List.map_cons, hashContribs, ih]

theorem hashContribs_perm_sum (f : α → Option Nat) {l₁ l₂ : List α} (hp : l₁.Perm l₂) :
    (hashContribs f l₁).map List.sum = (hashContribs f l₂).map List.sum := by
  induction hp with
  | nil => rfl
  | cons x hp ih =>
    simp only [hashContribs]
    cases hc : f x with
    | none => rfl
    | some c =>
      simp only [Option.map_map]
      have he : ∀ l : List α,
          Option.map (List.sum ∘ (fun cs => c :: cs)) (hashContribs f l) =
            Option.map (fun s => c + s) (Option.map List.sum (hashContribs f l)) := by
        intro l
        cases hashContribs f l <;> simp
      rw [he, he, ih]
  | swap x y l =>
    simp only [hashContribs]
    cases hx : f x with
    | none =>
      cases hy : f y with
      | none => rfl
      | some cy => simp
    | some cx =>
      cases hy : f y with
      | none => simp
      | some cy =>
        cases hl : hashContribs f l with
        | none => simp
        | some cs => simp only [Option.map_some', List.sum_cons]
                     rw [← Nat.add_assoc, ← Nat.add_assoc, Nat.add_comm cx cy]
  | trans _ _ ih1 ih2 => exact ih1.trans ih2

theorem collectPairs_full (ps2 : List (String × Nat)) :
    ∀ ps1 : List (String × Nat),
      (collectPairs ps1 ps2).length = ps1.length →
      (∀ pr ∈ ps1, ∃ v, mapLookup ps2 pr.1 = some v) ∧
      collectPairs ps1 ps2 =
        ps1.map (fun pr => (pr.2, (mapLookup ps2 pr.1).getD 0)) := by
  intro ps1
  induction ps1 with
  | nil => intro _; exact ⟨fun p hp => absurd hp (List.not_mem_nil p), rfl⟩
  | cons pr ps1 ih =>
    intro hlen
    rcases pr with ⟨n, t⟩
    simp only [collectPairs] at hlen ⊢
    cases hl : mapLookup ps2 n with
    | none => rw [hl] at hlen; simp at hlen
    | some v =>
      rw [hl] at hlen
      simp only [List.length_cons, Nat.succ_inj'] at hlen
      obtain ⟨h1, h2⟩ := ih hlen
      refine ⟨?_, ?_⟩
      · intro pr' hpr'
        rcases List.mem_cons.mp hpr' with rfl | hpr'
        · exact ⟨v, hl⟩
        · exact h1 pr' hpr'
      · simp only [List.map_cons, h2, hl, Option.getD_some]

theorem collectKindPairs_full (g : Graph) (ms2 : List Nat) :
    ∀ ms1 : List Nat,
      (collectKindPairs g ms1 ms2).length = ms1.length →
      (∀ m ∈ ms1, ∃ k, kindOf g m = some k ∧
        ∃ pm, lastWithKind g ms2 k = some pm) ∧
      collectKindPairs g ms1 ms2 =
        ms1.map (fun m => (m, (lastWithKind g ms2 ((kindOf g m).getD "")).getD 0)) := by
  intro ms1
  induction ms1 with
  | nil => intro _; exact ⟨fun m hm => absurd hm (List.not_mem_nil m), rfl⟩
  | cons m ms1 ih =>
    intro hlen
    simp only [collectKindPairs] at hlen ⊢
    cases hk : kindOf g m with
    | none => rw [hk] at hlen; simp at hlen
    | some k =>
      rw [hk] at hlen
      dsimp only at hlen
      cases hl : lastWithKind g ms2 k with
      | none => rw [hl] at hlen; simp at hlen
      | some pm =>
        rw [hl] at hlen
        simp only [List.length_cons, Nat.succ_inj'] at hlen
        obtain ⟨h1, h2⟩ := ih hlen
        refine ⟨?_, ?_⟩
        · intro m' hm'
          rcases List.mem_cons.mp hm' with rfl | hm'
          · exact ⟨k, hk, pm, hl⟩
          · exact h1 m' hm'
        · simp only [List.map_cons, h2, hk, Option.getD_some, hl]

theorem mapLookup_mem (ps : List (String × Nat)) (n : String) (v : Nat)
    (h : mapLookup ps n = some v) : (n, v) ∈ ps := by
  unfold mapLookup at h
  obtain ⟨q, hq, hqv⟩ := Option.map_eq_some'.mp h
  have hqm := List.mem_of_find?_eq_some hq
  have hqp : q.1 = n := by simpa using List.find?_some hq
  have hq2 : q = (n, v) := by
    rcases q with ⟨q1, q2⟩
    simp_all
  rwa [hq2] at hqm

theorem lastWithKind_spec (g : Graph) (ms : List Nat) (k : String) (pm : Nat)
    (h : lastWithKind g ms k = some pm) : pm ∈ ms ∧ kindOf g pm = some k := by
  unfold lastWithKind at h
  refine ⟨List.mem_reverse.mp (List.mem_of_find?_eq_some h), ?_⟩
  simpa using List.find?_some h

theorem paired_props_perm (ps1 ps2 : List (String × Nat))
    (hnd : (ps1.map Prod.fst).Nodup)
    (hlen : ps1.length = ps2.length)
    (hlook : ∀ pr ∈ ps1, ∃ v, mapLookup ps2 pr.1 = some v) :
    (ps1.map (fun pr => (pr.1, (mapLookup ps2 pr.1).getD 0))).Perm ps2 := by
  have hkeys : (ps1.map (fun pr => (pr.1, (mapLookup ps2 pr.1).getD 0))).map Prod.fst =
      ps1.map Prod.fst := by
    rw [List.map_map]
    rfl
  have hnd2 : (ps1.map (fun pr => (pr.1, (mapLookup ps2 pr.1).getD 0))).Nodup := by
    have : ((ps1.map (fun pr => (pr.1, (mapLookup ps2 pr.1).getD 0))).map Prod.fst).Nodup := by
      rw [hkeys]; exact hnd
    exact this.of_map Prod.fst
  have hsub : ps1.map (fun pr => (pr.1, (mapLookup ps2 pr.1).getD 0)) ⊆ ps2 := by
    intro q hq
    obtain ⟨pr, hpr, rfl⟩ := List.mem_map.mp hq
    obtain ⟨v, hv⟩ := hlook pr hpr
    rw [hv]
    exact mapLookup_mem ps2 pr.1 v hv
  have hsp := hnd2.subperm hsub
  refine hsp.perm_of_length_le ?_
  simp [hlen]

theorem paired_members_perm (g : Graph) (ms1 ms2 : List Nat)
    (hpw : ms1.Pairwise (fun a b => kindOf g a ≠ kindOf g b))
    (hlen : ms1.length = ms2.length)
    (hlook : ∀ m ∈ ms1, ∃ k, kindOf g m = some k ∧
      ∃ pm, lastWithKind g ms2 k = some pm) :
    (ms1.map (fun m => (lastWithKind g ms2 ((kindOf g m).getD "")).getD 0)).Perm ms2 := by
  have hkpart : ∀ m ∈ ms1,
      kindOf g ((lastWithKind g ms2 ((kindOf g m).getD "")).getD 0) = kindOf g m := by
    intro m hm
    obtain ⟨k, hk, pm, hpm⟩ := hlook m hm
    rw [hk]
    simp only [hk, Option.getD_some] at hpm ⊢
    rw [hpm]
    simp only [Option.getD_some]
    exact (lastWithKind_spec g ms2 k pm hpm).2
  have hnd2 : (ms1.map (fun m => (lastWithKind g ms2 ((kindOf g m).getD "")).getD 0)).Nodup := by
    have hpw2 : (ms1.map
        (fun m => (lastWithKind g ms2 ((kindOf g m).getD "")).getD 0)).Pairwise
        (fun a b => a ≠ b) := by
      rw [List.pairwise_map]
      refine hpw.imp_of_mem ?_
      intro a b ha hb hab heq
      apply hab
      rw [← hkpart a ha, ← hkpart b hb, heq]
    exact hpw2
  have hsub : ms1.map (fun m => (lastWithKind g ms2 ((kindOf g m).getD "")).getD 0) ⊆ ms2 := by
    intro q hq
    obtain ⟨m, hm, rfl⟩ := List.mem_map.mp hq
    obtain ⟨k, hk, pm, hpm⟩ := hlook m hm
    rw [hk]
    simp only [Option.getD_some, hpm]
    exact (lastWithKind_spec g ms2 k pm hpm).1
  have hsp := hnd2.subperm hsub
  refine hsp.perm_of_length_le ?_
  simp [hlen]

theorem PairsOK_mono (S S' : List (Nat × Nat)) (hsub : ∀ p ∈ S, p ∈ S') :
    ∀ r, PairsOK S r → PairsOK S' r := by
  intro r h
  cases r with
  | res b => exact h
  | more q =>
    intro p hp
    rcases h p hp with h1 | h1
    · exact Or.inl h1
    · exact Or.inr (hsub p h1)

theorem eqLoop_closed (g : Graph) :
    ∀ (fuel : Nat) (seen queue : List (Nat × Nat)),
      eqLoop g fuel seen queue = some true →
      ∃ S : List (Nat × Nat),
        (∀ p ∈ seen, p ∈ S) ∧
        (∀ p ∈ queue, p.1 = p.2 ∨ p ∈ S) ∧
        (∀ p ∈ S, p ∈ seen ∨
          ∃ r, expandForEquality g p.1 p.2 = some r ∧ PairsOK S r) := by
  intro fuel
  induction fuel with
  | zero => intro seen queue h; cases h
  | succ fuel ih =>
    intro seen queue h
    cases queue with
    | nil =>
      exact ⟨seen, fun p hp => hp,
        fun p hp => absurd hp (List.not_mem_nil p), fun p hp => Or.inl hp⟩
    | cons p rest =>
      rw [eqLoop] at h
      by_cases hpq : p.1 = p.2
      · rw [if_pos hpq] at h
        obtain ⟨S, hseen, hqueue, hclosed⟩ := ih seen rest h
        refine ⟨S, hseen, ?_, hclosed⟩
        intro q hq
        rcases List.mem_cons.mp hq with rfl | hq'
        · exact Or.inl hpq
        · exact hqueue q hq'
      · rw [if_neg hpq] at h
        by_cases hpseen : p ∈ seen
        · rw [if_pos hpseen] at h
          obtain ⟨S, hseen, hqueue, hclosed⟩ := ih seen rest h
          refine ⟨S, hseen, ?_, hclosed⟩
          intro q hq
          rcases List.mem_cons.mp hq with rfl | hq'
          · exact Or.inr (hseen q hpseen)
          · exact hqueue q hq'
        · rw [if_neg hpseen] at h
          cases hexp : expandForEquality g p.1 p.2 with
          | none => rw [hexp] at h; cases h
          | some r =>
            cases r with
            | res b =>
              rw [hexp] at h
              dsimp only at h
              cases b with
              | false => simp at h
              | true =>
                rw [if_pos rfl] at h
                obtain ⟨S, hseen', hqueue, hclosed⟩ := ih (p :: seen) rest h
                refine ⟨S, fun q hq => hseen' q (List.mem_cons_of_mem p hq), ?_, ?_⟩
                · intro q hq
                  rcases List.mem_cons.mp hq with rfl | hq'
                  · exact Or.inr (hseen' q (by simp))
                  · exact hqueue q hq'
                · intro q hq
                  rcases hclosed q hq with hq' | hq'
                  · rcases List.mem_cons.mp hq' with rfl | hq''
                    · exact Or.inr ⟨.res true, hexp, rfl⟩
                    · exact Or.inl hq''
                  · exact Or.inr hq'
            | more qs =>
              rw [hexp] at h
              dsimp only at h
              obtain ⟨S, hseen', hqueue, hclosed⟩ := ih (p :: seen) (qs.reverse ++ rest) h
              refine ⟨S, fun q hq => hseen' q (List.mem_cons_of_mem p hq), ?_, ?_⟩
              · intro q hq
                rcases List.mem_cons.mp hq with rfl | hq'
                · exact Or.inr (hseen' q (by simp))
                · exact hqueue q (by simp [hq'])
              · intro q hq
                rcases hclosed q hq with hq' | hq'
                · rcases List.mem_cons.mp hq' with rfl | hq''
                  · refine Or.inr ⟨.more qs, hexp, ?_⟩
                    intro r hr
                    exact hqueue r (by simp [hr])
                  · exact Or.inl hq''
                · exact Or.inr hq'

theorem foldlM_hash_contribs2 (contrib : α → Option Nat) :
    ∀ (l : List α) (h0 : Nat), h0 < U32 →
      l.foldlM (fun h a => (contrib a).map fun c => (h + c) % U32) h0 =
        (hashContribs contrib l).map (fun cs => (h0 + cs.sum) % U32) := by
  intro l
  induction l with
  | nil =>
    intro h0 hh
    simp only [List.foldlM_nil, hashContribs, Option.map_some', List.sum_nil,
      Nat.add_zero, Nat.mod_eq_of_lt hh]
    rfl
  | cons a l ih =>
    intro h0 hh
    rw [List.foldlM_cons]
    simp only [hashContribs]
    cases hc : contrib a with
    | none => simp [hc]
    | some c =>
      simp only [hc, Option.map_some', Option.bind_eq_bind, Option.some_bind]
      rw [ih ((h0 + c) % U32) (Nat.mod_lt _ U32_pos)]
      cases hcl : hashContribs contrib l with
      | none => simp [hcl]
      | some cs =>
        simp only [hcl, Option.map_some', Option.map_map, Function.comp_apply,
          List.sum_cons]
        congr 1
        rw [Nat.mod_add_mod]
        congr 1
        ring

theorem option_map_sum_lift (fh : Nat) (o1 o2 : Option (List Nat))
    (ho : o1.map List.sum = o2.map List.sum) :
    o1.map (fun cs => (fh + cs.sum) % U32) = o2.map (fun cs => (fh + cs.sum) % U32) := by
  cases o1 with
  | none => cases o2 with
    | none => rfl
    | some l2 => simp at ho
  | some l1 => cases o2 with
    | none => simp at ho
    | some l2 =>
      simp only [Option.map_some'] at ho ⊢
      rw [Option.some.inj ho]

theorem hash_eq_of_closed (g : Graph) (S : List (Nat × Nat)) (hwf : HashWF g)
    (hcl : ∀ p ∈ S, ∃ r, expandForEquality g p.1 p.2 = some r ∧ PairsOK S r) :
    ∀ (fuel : Nat) (x y : Nat), (x = y ∨ (x, y) ∈ S) →
      hashAux g fuel true x = hashAux g fuel true y ∧
      hashAux g fuel false x = hashAux g fuel false y := by
  intro fuel
  induction fuel with
  | zero => intro x y _; exact ⟨rfl, rfl⟩
  | succ fuel ih =>
    intro x y hxy
    rcases hxy with rfl | hmem
    · exact ⟨rfl, rfl⟩
    obtain ⟨r, hexp, hok⟩ := hcl (x, y) hmem
    unfold expandForEquality at hexp
    cases hdx : g[x]? with
    | none =>
      rw [hdx] at hexp
      cases hdy : g[y]? with
      | none => rw [hdy] at hexp; simp at hexp
      | some d2 => rw [hdy] at hexp; simp at hexp
    | some d1 =>
      rw [hdx] at hexp
      cases hdy : g[y]? with
      | none => rw [hdy] at hexp; simp at hexp
      | some d2 =>
        rw [hdy] at hexp
        dsimp only at hexp
        cases d1 with
        | primitiveType k1 =>
          cases d2 <;> try (dsimp only at hexp; cases hexp; simp [PairsOK] at hok; done)
          rename_i k2
          dsimp only at hexp
          cases hexp
          have hk : k1 = k2 := by simpa [PairsOK] using hok
          subst hk
          constructor
          · simp [hashAux, hdx, hdy]
          · simp only [hashAux, hdx, hdy, Option.some_bind]
            exact (ih x y (Or.inr hmem)).1
        | arrayType t1 =>
          cases d2 <;> try (dsimp only at hexp; cases hexp; simp [PairsOK] at hok; done)
          rename_i t2
          dsimp only at hexp
          cases hexp
          simp only [PairsOK] at hok
          have hgood : t1 = t2 ∨ (t1, t2) ∈ S := hok (t1, t2) (by simp)
          constructor
          · simp only [hashAux, hdx, hdy, Option.some_bind]
            rw [(ih t1 t2 hgood).2]
            simp
          · simp only [hashAux, hdx, hdy, Option.some_bind]
            exact (ih x y (Or.inr hmem)).1
        | mapType t1 =>
          cases d2 <;> try (dsimp only at hexp; cases hexp; simp [PairsOK] at hok; done)
          rename_i t2
          dsimp only at hexp
          cases hexp
          simp only [PairsOK] at hok
          have hgood : t1 = t2 ∨ (t1, t2) ∈ S := hok (t1, t2) (by simp)
          constructor
          · simp only [hashAux, hdx, hdy, Option.some_bind]
            rw [(ih t1 t2 hgood).2]
            simp
          · simp only [hashAux, hdx, hdy, Option.some_bind]
            exact (ih x y (Or.inr hmem)).1
        | enumType ns1 inf1 cs1 =>
          cases d2 <;> try (dsimp only at hexp; cases hexp; simp [PairsOK] at hok; done)
          rename_i ns2 inf2 cs2
          dsimp only at hexp
          cases hexp
          simp only [PairsOK, Bool.and_eq_true, decide_eq_true_eq] at hok
          obtain ⟨rfl, rfl⟩ := hok
          constructor
          · simp [hashAux, hdx, hdy]
          · simp only [hashAux, hdx, hdy, Option.some_bind]
            exact (ih x y (Or.inr hmem)).1
        | classType ns1 inf1 ps1? =>
          cases d2 <;> try (dsimp only at hexp; cases hexp; simp [PairsOK] at hok; done)
          rename_i ns2 inf2 ps2?
          dsimp only at hexp
          by_cases hns : ns1 = ns2
          case neg =>
            rw [if_neg hns] at hexp
            cases hexp
            simp [PairsOK] at hok
          case pos =>
            subst hns
            rw [if_pos rfl] at hexp
            cases ps1? with
            | none =>
              cases ps2? with
              | none => dsimp only at hexp; cases hexp
              | some ps2 => dsimp only at hexp; cases hexp
            | some ps1 =>
              cases ps2? with
              | none => dsimp only at hexp; cases hexp
              | some ps2 =>
                dsimp only at hexp
                by_cases hlen : ps1.length = ps2.length
                case neg =>
                  rw [if_neg hlen] at hexp
                  cases hexp
                  simp [PairsOK] at hok
                case pos =>
                  rw [if_pos hlen] at hexp
                  by_cases hz : ps1.length = 0
                  case pos =>
                    rw [if_pos hz] at hexp
                    cases hexp
                    have hps1 : ps1 = [] := List.length_eq_zero.mp hz
                    have hps2 : ps2 = [] := List.length_eq_zero.mp (by omega)
                    subst hps1
                    subst hps2
                    constructor
                    · simp [hashAux, hdx, hdy]
                    · simp only [hashAux, hdx, hdy, Option.some_bind]
                      rw [(ih x y (Or.inr hmem)).1]
                  case neg =>
                    rw [if_neg hz] at hexp
                    by_cases hq : (collectPairs ps1 ps2).length = ps1.length
                    case neg =>
                      rw [if_neg hq] at hexp
                      cases hexp
                      simp [PairsOK] at hok
                    case pos =>
                      rw [if_pos hq] at hexp
                      cases hexp
                      simp only [PairsOK] at hok
                      obtain ⟨hlook, hcpeq⟩ := collectPairs_full ps2 ps1 hq
                      have hflat_child : ∀ pr ∈ ps1,
                          hashAux g fuel true pr.2 =
                            hashAux g fuel true ((mapLookup ps2 pr.1).getD 0) := by
                        intro pr hpr
                        have hpair : (pr.2, (mapLookup ps2 pr.1).getD 0) ∈
                            collectPairs ps1 ps2 := by
                          rw [hcpeq]
                          exact List.mem_map_of_mem _ hpr
                        have hg := hok _ hpair
                        exact (ih pr.2 ((mapLookup ps2 pr.1).getD 0) hg).1
                      have hdmem : NodeDef.classType ns1 inf1 (some ps1) ∈ g :=
                        List.getElem?_mem hdx
                      have hnd : (ps1.map Prod.fst).Nodup := by
                        have := hwf _ hdmem
                        simpa [defWFB] using this
                      have hperm := paired_props_perm ps1 ps2 hnd hlen hlook
                      constructor
                      · simp [hashAux, hdx, hdy, hlen]
                      · simp only [hashAux, hdx, hdy, Option.some_bind]
                        rw [← (ih x y (Or.inr hmem)).1]
                        cases hfx : hashAux g fuel true x with
                        | none => rfl
                        | some fh =>
                          have hfh32 : fh < U32 := hashAux_lt g fuel true x fh hfx
                          simp only [Option.some_bind]
                          rw [foldlM_hash_contribs
                              (fun pr => hashAux g fuel true pr.2)
                              (fun pr => stringHash pr.1) ps1 fh hfh32,
                            foldlM_hash_contribs
                              (fun pr => hashAux g fuel true pr.2)
                              (fun pr => stringHash pr.1) ps2 fh hfh32]
                          apply option_map_sum_lift
                          have h1 : hashContribs
                              (fun pr : String × Nat =>
                                (hashAux g fuel true pr.2).map
                                  (fun c => c + stringHash pr.1)) ps1 =
                              hashContribs
                                (fun pr : String × Nat =>
                                  (hashAux g fuel true pr.2).map
                                    (fun c => c + stringHash pr.1))
                                (ps1.map (fun pr =>
                                  (pr.1, (mapLookup ps2 pr.1).getD 0))) := by
                            rw [hashContribs_map]
                            apply hashContribs_congr
                            intro pr hpr
                            rw [hflat_child pr hpr]
                          rw [h1]
                          exact hashContribs_perm_sum _ hperm
        | unionType ns1 inf1 ms1 =>
          cases d2 <;> try (dsimp only at hexp; cases hexp; simp [PairsOK] at hok; done)
          rename_i ns2 inf2 ms2
          dsimp only at hexp
          by_cases hns : ns1 = ns2
          case neg =>
            rw [if_neg hns] at hexp
            cases hexp
            simp [PairsOK] at hok
          case pos =>
            subst hns
            rw [if_pos rfl] at hexp
            by_cases hlen : ms1.length = ms2.length
            case neg =>
              rw [if_neg hlen] at hexp
              cases hexp
              simp [PairsOK] at hok
            case pos =>
              rw [if_pos hlen] at hexp
              by_cases hz : ms1.length = 0
              case pos =>
                rw [if_pos hz] at hexp
                cases hexp
                have hms1 : ms1 = [] := List.length_eq_zero.mp hz
                have hms2 : ms2 = [] := List.length_eq_zero.mp (by omega)
                subst hms1
                subst hms2
                constructor
                · simp [hashAux, hdx, hdy]
                · simp only [hashAux, hdx, hdy, Option.some_bind]
                  rw [(ih x y (Or.inr hmem)).1]
              case neg =>
                rw [if_neg hz] at hexp
                cases hk2 : allKinds g ms2 with
                | none => rw [hk2] at hexp; dsimp only at hexp; cases hexp
                | some ks2 =>
                  rw [hk2] at hexp
                  cases hk1 : allKinds g ms1 with
                  | none => rw [hk1] at hexp; dsimp only at hexp; cases hexp
                  | some ks1 =>
                    rw [hk1] at hexp
                    dsimp only at hexp
                    by_cases hq : (collectKindPairs g ms1 ms2).length = ms1.length
                    case neg =>
                      rw [if_neg hq] at hexp
                      cases hexp
                      simp [PairsOK] at hok
                    case pos =>
                      rw [if_pos hq] at hexp
                      cases hexp
                      simp only [PairsOK] at hok
                      obtain ⟨hlook, hcpeq⟩ := collectKindPairs_full g ms2 ms1 hq
                      have hflat_child : ∀ m ∈ ms1,
                          hashAux g fuel true m =
                            hashAux g fuel true
                              ((lastWithKind g ms2 ((kindOf g m).getD "")).getD 0) := by
                        intro m hm
                        have hpair :
                            (m, (lastWithKind g ms2 ((kindOf g m).getD "")).getD 0) ∈
                              collectKindPairs g ms1 ms2 := by
                          rw [hcpeq]
                          exact List.mem_map_of_mem _ hm
                        have hg := hok _ hpair
                        exact (ih m _ hg).1
                      have hdmem : NodeDef.unionType ns1 inf1 ms1 ∈ g :=
                        List.getElem?_mem hdx
                      have hpw : ms1.Pairwise (fun a b => kindOf g a ≠ kindOf g b) := by
                        have := hwf _ hdmem
                        simpa [defWFB] using this
                      have hlook2 : ∀ m ∈ ms1, ∃ k, kindOf g m = some k ∧
                          ∃ pm, lastWithKind g ms2 k = some pm := hlook
                      have hperm := paired_members_perm g ms1 ms2 hpw hlen hlook2
                      constructor
                      · simp [hashAux, hdx, hdy, hlen]
                      · simp only [hashAux, hdx, hdy, Option.some_bind]
                        rw [← (ih x y (Or.inr hmem)).1]
                        cases hfx : hashAux g fuel true x with
                        | none => rfl
                        | some fh =>
                          have hfh32 : fh < U32 := hashAux_lt g fuel true x fh hfx
                          simp only [Option.some_bind]
                          rw [foldlM_hash_contribs2
                              (fun m => hashAux g fuel true m) ms1 fh hfh32,
                            foldlM_hash_contribs2
                              (fun m => hashAux g fuel true m) ms2 fh hfh32]
                          apply option_map_sum_lift
                          have h1 : hashContribs
                              (fun m => hashAux g fuel true m) ms1 =
                              hashContribs (fun m => hashAux g fuel true m)
                                (ms1.map (fun m =>
                                  (lastWithKind g ms2 ((kindOf g m).getD "")).getD 0)) := by
                            rw [hashContribs_map]
                            apply hashContribs_congr
                            intro m hm
                            exact hflat_child m hm
                          rw [h1]
                          exact hashContribs_perm_sum _ hperm

/-- C2: hashing is sound with respect to the cycle-safe equality — on any
graph satisfying the source's class/union construction invariants, if
typesEqual answers true then the two nodes' hashCode values agree (at every
hash fuel); the converse is not required.  The proof extracts the recorded
pair set of the successful work-list run, which is closed under equality
expansion, and shows flat and full hashes agree on every recorded pair. -/
theorem claim2_equal_nodes_have_equal_hashCode (g : Graph) (a b : Nat)
    (fe fh : Nat) (hwf : HashWF g) (heq : typesEqual g fe a b = some true) :
    hashCode g fh a = hashCode g fh b := by
  unfold hashCode
  unfold typesEqual at heq
  by_cases hab : a = b
  · subst hab; rfl
  rw [if_neg hab] at heq
  cases hexp : expandForEquality g a b with
  | none => rw [hexp] at heq; cases heq
  | some r =>
    cases r with
    | res bb =>
      rw [hexp] at heq
      dsimp only at heq
      have hbb : bb = true := Option.some.inj heq
      subst hbb
      apply (hash_eq_of_closed g [(a, b)] hwf ?_ fh a b (Or.inr (by simp))).2
      intro p hp
      rw [List.mem_singleton] at hp
      subst hp
      exact ⟨.res true, hexp, rfl⟩
    | more q =>
      rw [hexp] at heq
      dsimp only at heq
      obtain ⟨S, _, hqueue, hclosed⟩ := eqLoop_closed g fe [] q.reverse heq
      have hclosed' : ∀ p ∈ S,
          ∃ r, expandForEquality g p.1 p.2 = some r ∧ PairsOK S r := by
        intro p hp
        rcases hclosed p hp with hp' | hp'
        · cases hp'
        · exact hp'
      have hcl2 : ∀ p ∈ (a, b) :: S,
          ∃ r, expandForEquality g p.1 p.2 = some r ∧ PairsOK ((a, b) :: S) r := by
        intro p hp
        rcases List.mem_cons.mp hp with rfl | hp'
        · refine ⟨.more q, hexp, ?_⟩
          intro s hs
          rcases hqueue s (by simp [hs]) with h1 | h1
          · exact Or.inl h1
          · exact Or.inr (by simp [h1])
        · obtain ⟨r, hr1, hr2⟩ := hclosed' p hp'
          exact ⟨r, hr1, PairsOK_mono S _ (fun s hs => by simp [hs]) r hr2⟩
      exact (hash_eq_of_closed g ((a, b) :: S) hwf hcl2 fh a b (Or.inr (by simp))).2

/-- Witness for C2: two equal enum nodes (differing only in identity and
flag) have equal hash codes. -/
theorem claim2_equal_nodes_have_equal_hashCode_witness :
    HashWF [.enumType ["E"] true ["a"], .enumType ["E"] false ["a"]] ∧
    typesEqual [.enumType ["E"] true ["a"], .enumType ["E"] false ["a"]]
      1 0 1 = some true ∧
    hashCode [.enumType ["E"] true ["a"], .enumType ["E"] false ["a"]] 3 0 =
      hashCode [.enumType ["E"] true ["a"], .enumType ["E"] false ["a"]] 3 1 :=
  ⟨by decide, by decide,
   claim2_equal_nodes_have_equal_hashCode
     [.enumType ["E"] true ["a"], .enumType ["E"] false ["a"]] 0 1 1 3
     (by decide) (by decide)⟩
